import Mathlib

/-!
Verification development for the PIXID multi-contract XML processor
(`processor.py`).  The XML document tree is shallowly embedded as `Elem`
(tag, optional text, list of children).  lxml's relative XPath queries of
the shape `.//hr:A/hr:B/...` (the only shape issued by the program after
`_rel` normalisation of `//…`-style expressions) are embedded as
suffix-matching of a segment chain against the tag path of a descendant,
returning matches in document (preorder) order.  Tags are stored as
Clark-notation qualified names (`\x7bns\x7dlocal`), matching lxml's
internal representation; `_rel`'s namespace expansion `hr:X ↦ \x7bns\x7dX`
is the function `hrQ`.  Node identity is modelled as the node's position
(list of child indices) from the root, which is stable under the
append-only mutations the program performs.
-/

/-- An XML element: qualified tag, optional text content, child elements.
Embeds lxml `_Element` as used by the processor (attributes, comments and
mixed content are never consulted by the code under verification). -/
inductive Elem where
  | mk (tag : String) (text : Option String) (children : List Elem)
deriving Repr

/-- The qualified tag of an element. -/
def Elem.tag : Elem → String
  | .mk t _ _ => t

/-- The text content of an element (`node.text`). -/
def Elem.text : Elem → Option String
  | .mk _ x _ => x

/-- The list of child elements. -/
def Elem.children : Elem → List Elem
  | .mk _ _ cs => cs

/-- A position in the tree: the list of child indices from the root. -/
abbrev Pos := List Nat

/-- The node at a position, if the position is valid. -/
def Elem.get? (e : Elem) (p : Pos) : Option Elem :=
  match p, e with
  | [], e => some e
  | i :: q, .mk _ _ cs =>
    match cs[i]? with
    | some c => c.get? q
    | none => none

/-- The node at a position, defaulting to a dummy element. -/
def subAt (e : Elem) (p : Pos) : Elem :=
  (e.get? p).getD (Elem.mk "" none [])

/-- Replace the node at a position by applying `f` to it (no-op if the
position is invalid).  Models in-place mutation of one subtree. -/
def modifyAt (e : Elem) (p : Pos) (f : Elem → Elem) : Elem :=
  match p, e with
  | [], e => f e
  | i :: q, .mk t x cs =>
    match cs[i]? with
    | some c => .mk t x (cs.set i (modifyAt c q f))
    | none => .mk t x cs

/-- Tags of the nodes strictly below the root along a position
(first entry is the tag of the child taken first, last entry the tag of
the node at the position). -/
def tagsAlong (e : Elem) (p : Pos) : Option (List String) :=
  match p, e with
  | [], _ => some []
  | i :: q, .mk _ _ cs =>
    match cs[i]? with
    | some c => (tagsAlong c q).map (fun ts => c.tag :: ts)
    | none => none

mutual
/-- All positions of the subtree rooted at `e` (the root `[]` included),
in preorder = document order. -/
def subtreePos : Elem → List Pos
  | .mk _ _ cs => [] :: subtreePosList 0 cs

/-- Positions of the forest `cs`, child indices starting at `k`. -/
def subtreePosList : Nat → List Elem → List Pos
  | _, [] => []
  | k, c :: cs =>
    (subtreePos c).map (fun p => k :: p) ++ subtreePosList (k + 1) cs
end

/-- Number of children of the node at `p` (0 if invalid). -/
def childCountAt (e : Elem) (p : Pos) : Nat :=
  match e.get? p with
  | some s => s.children.length
  | none => 0

/-! ### Python string helpers -/

/-- Python `str.strip()`: drop leading and trailing whitespace. -/
def pstrip (s : String) : String :=
  ⟨(s.data.dropWhile Char.isWhitespace).rdropWhile Char.isWhitespace⟩

/-- Python `s.split("-")[0]`: the part of `s` before its first hyphen
(all of `s` when there is no hyphen). -/
def beforeHyphen (s : String) : String :=
  ⟨s.data.takeWhile (fun c => c ≠ '-')⟩

/-- Python `"-" in s`. -/
def hasHyphen (s : String) : Bool :=
  s.data.any (fun c => c = '-')

/-! ### Relative path resolution

`_rel` rewrites `//seg₁/…/segₙ` (and bare `seg₁/…/segₙ`) to
`.//seg₁/…/segₙ`, which lxml evaluates as: every descendant of the
context whose chain of tags from the context ends with `seg₁,…,segₙ`,
in document order.  A path expression is embedded as its list of
(namespace-expanded) segments. -/

/-- The HR-XML namespace used by the processor (`HR_NS`). -/
def HR_NS : String := "http://ns.hr-xml.org/2004-08-02"

/-- Clark-notation qualified name for an `hr:`-prefixed segment:
`hr:X ↦ \x7bHR_NS\x7dX` (what both lxml's namespace map and
`ensure_node_rel`'s tag construction produce). -/
def hrQ (s : String) : String := "\x7b" ++ HR_NS ++ "\x7d" ++ s

/-- Does position `p` match the chain `segs` relative to context `ctx`?
(`.//seg₁/…/segₙ` semantics: `p` is a proper descendant and the tags
along `p` end with `segs`.) -/
def matchChainB (ctx : Elem) (segs : List String) (p : Pos) : Bool :=
  !p.isEmpty &&
    (match tagsAlong ctx p with
     | some ts => segs.isSuffixOf ts
     | none => false)

/-- All positions (relative to `ctx`, document order) matching the chain:
embeds `ctx.xpath(_rel(xpath))`. -/
def findAllPos (ctx : Elem) (segs : List String) : List Pos :=
  (subtreePos ctx).filter (matchChainB ctx segs)

/-- `find_one_rel`: the first match, if any. -/
def findOneRel (ctx : Elem) (segs : List String) : Option Pos :=
  (findAllPos ctx segs).head?

/-- `get_text_rel`: trimmed text of the first matching node, or `""` when
there is no match or the node has no text. -/
def getTextRel (ctx : Elem) (segs : List String) : String :=
  match findOneRel ctx segs with
  | none => ""
  | some p =>
    match (ctx.get? p).bind Elem.text with
    | some s => pstrip s
    | none => ""

/-- Set the text of the node at `p` (models `node.text = value`). -/
def setTextAt (e : Elem) (p : Pos) (v : String) : Elem :=
  modifyAt e p (fun s => .mk s.tag (some v) s.children)

/-- Append `c` as the last child of the node at `p`
(models `parent.append(new_el)`). -/
def appendChildAt (e : Elem) (p : Pos) (c : Elem) : Elem :=
  modifyAt e p (fun s => .mk s.tag s.text (s.children ++ [c]))

/-- The body of `ensure_node_rel`'s walk: for each remaining segment,
re-resolve the partial chain `done ++ [q]` from the context on the
current (possibly already mutated) tree; reuse the first match if one
exists, otherwise create the element as the last child of the current
parent.  Returns the final tree and the position of the final parent. -/
def ensureLoop (ctx : Elem) (parent : Pos) (done : List String) :
    List String → Elem × Pos
  | [] => (ctx, parent)
  | q :: rest =>
    match findAllPos ctx (done ++ [q]) with
    | p :: _ => ensureLoop ctx p (done ++ [q]) rest
    | [] =>
      let n := childCountAt ctx parent
      let ctx' := appendChildAt ctx parent (Elem.mk q none [])
      ensureLoop ctx' (parent ++ [n]) (done ++ [q]) rest

/-- `ensure_node_rel`: return the first full-chain match if it exists,
otherwise walk-and-create.  Returns the new tree and the terminal node's
position. -/
def ensureNodeRel (ctx : Elem) (segs : List String) : Elem × Pos :=
  match findAllPos ctx segs with
  | p :: _ => (ctx, p)
  | [] => ensureLoop ctx [] [] segs

/-- `set_text_rel`: write `value` (verbatim) to the first matching node,
creating it via `ensure_node_rel` when absent. -/
def setTextRel (ctx : Elem) (segs : List String) (v : String) : Elem :=
  match findAllPos ctx segs with
  | p :: _ => setTextAt ctx p v
  | [] =>
    let (c, p) := ensureNodeRel ctx segs
    setTextAt c p v

/-! ### Contract discovery -/

/-- Is `e` a contract marker: a `ReferenceInformation` element with both
an `OrderId/IdValue` and an `AssignmentId/IdValue` child chain
(the predicate of the discovery XPath)? -/
def isMarker (e : Elem) : Bool :=
  e.tag == hrQ "ReferenceInformation" &&
  e.children.any (fun c =>
    c.tag == hrQ "OrderId" &&
    c.children.any (fun g => g.tag == hrQ "IdValue")) &&
  e.children.any (fun c =>
    c.tag == hrQ "AssignmentId" &&
    c.children.any (fun g => g.tag == hrQ "IdValue"))

/-- Does `e` have a marker child (i.e. is `e` the `/..` of a matched
`ReferenceInformation`)? -/
def hasMarkerChild (e : Elem) : Bool :=
  e.children.any isMarker

/-- `find_contract_contexts`: positions of all elements with a marker
child.  lxml returns the `//…/..` node-set deduplicated in document
order, and the subsequent `id()`-dedup loop preserves that order; this is
exactly the preorder filter below. -/
def findContractContexts (root : Elem) : List Pos :=
  (subtreePos root).filter (fun p =>
    match root.get? p with
    | some e => hasMarkerChild e
    | none => false)

/-- Is `p` (the position of) a contract context of `e`? -/
def ctxPred (e : Elem) : Pos → Bool := fun p =>
  match e.get? p with
  | some s => hasMarkerChild s
  | none => false

/-! ### Fixed relative paths used by the processor -/

/-- `//hr:ReferenceInformation/hr:OrderId/hr:IdValue`. -/
def refOrderSegs : List String :=
  [hrQ "ReferenceInformation", hrQ "OrderId", hrQ "IdValue"]

/-- `//hr:ReferenceInformation/hr:AssignmentId/hr:IdValue`. -/
def refAssignSegs : List String :=
  [hrQ "ReferenceInformation", hrQ "AssignmentId", hrQ "IdValue"]

/-- `//hr:PositionCharacteristics/hr:PositionCoefficient`. -/
def coeffSegs : List String :=
  [hrQ "PositionCharacteristics", hrQ "PositionCoefficient"]

/-- `//hr:PositionCharacteristics/hr:PositionLevel`. -/
def levelSegs : List String :=
  [hrQ "PositionCharacteristics", hrQ "PositionLevel"]

/-- `//hr:ContractInformation/hr:ContractLegalReason/hr:RecourseType`. -/
def recourseSegs : List String :=
  [hrQ "ContractInformation", hrQ "ContractLegalReason", hrQ "RecourseType"]

/-- `extract_order_id_ctx`. -/
def extractOrderIdCtx (ctx : Elem) : String := getTextRel ctx refOrderSegs

/-- `extract_assignment_id_ctx`. -/
def extractAssignmentIdCtx (ctx : Elem) : String := getTextRel ctx refAssignSegs

/-! ### Classification normalization -/

/-- The compiled default classification regex `^[A-E]\d\x7b1,2\x7d$` as a
full-string matcher: one letter `A`–`E` then one or two digits.  (Its
input here is always a stripped string, so Python's `$`-before-final-
newline subtlety cannot arise.) -/
def defaultClassMatch (s : String) : Bool :=
  match s.data with
  | c :: rest =>
    ('A' ≤ c && c ≤ 'E') && (rest.length == 1 || rest.length == 2) &&
      rest.all Char.isDigit
  | [] => false

/-- `normalize_classification_ctx`, with the compiled regex abstracted as
the matcher `rx` (default `defaultClassMatch`).  Returns
(changed, coefficient value, resulting tree). -/
def normalizeClassificationCtx (ctx : Elem) (rx : String → Bool) :
    Bool × String × Elem :=
  let coeff := getTextRel ctx coeffSegs
  let level := getTextRel ctx levelSegs
  if coeff = "" ∧ rx level then (true, level, setTextRel ctx coeffSegs level)
  else (false, coeff, ctx)

/-! ### Mapping engine -/

/-- The mapping configuration (`cfg`), with dict-`get` defaulting already
applied at the boundary: `mappings`, `statut_map`, `site_idvalue.rebuild`
(truthiness of the YAML value), `site_idvalue.siret_prefix` (`""` models
both an absent key and an empty value, Python-falsy either way),
`rules.normalize_coefficient_from_level` and the compiled
`rules.classification_regex`. -/
structure Config where
  mappings : List (String × List String)
  statutMap : List (String × String)
  rebuild : Bool
  siretPref : String
  normalizeCoeff : Bool
  classMatch : String → Bool

/-- An order record (`cmd`): field name to already-stringified value. -/
abbrev Cmd := List (String × String)

/-- Engine state while applying one record: applied-fields list (Python's
insertion-ordered `applied` dict) and the current tree. -/
abbrev EngineSt := Cmd × Elem

/-- The `classification_interimaire` block of `apply_command_mappings_ctx`. -/
def applyCls (cmd : Cmd) (cfg : Config) (st : EngineSt) : EngineSt :=
  match cmd.lookup "classification_interimaire",
        cfg.mappings.lookup "classification_interimaire" with
  | some raw, some path =>
    let v := pstrip raw
    if v = "" then st
    else (st.1 ++ [("classification_interimaire", v)], setTextRel st.2 path v)
  | _, _ => st

/-- The `statut` block: translate through `statut_map` (pass-through when
absent), skip when the translated value is empty. -/
def applyStatut (cmd : Cmd) (cfg : Config) (st : EngineSt) : EngineSt :=
  match cmd.lookup "statut", cfg.mappings.lookup "statut" with
  | some raw, some path =>
    let r := pstrip raw
    let v := if r = "" then "" else (cfg.statutMap.lookup r).getD r
    if v = "" then st
    else (st.1 ++ [("statut", v)], setTextRel st.2 path v)
  | _, _ => st

/-- The `personne_absente` block: write the value and unconditionally set
the fixed `RecourseType` field to `"01"`. -/
def applyPersonne (cmd : Cmd) (cfg : Config) (st : EngineSt) : EngineSt :=
  match cmd.lookup "personne_absente", cfg.mappings.lookup "personne_absente" with
  | some raw, some path =>
    let v := pstrip raw
    if v = "" then st
    else
      (st.1 ++ [("personne_absente", v), ("recourse_type", "01")],
       setTextRel (setTextRel st.2 path v) recourseSegs "01")
  | _, _ => st

/-- The `code_metier` block. -/
def applyMetier (cmd : Cmd) (cfg : Config) (st : EngineSt) : EngineSt :=
  match cmd.lookup "code_metier", cfg.mappings.lookup "code_metier" with
  | some raw, some path =>
    let v := pstrip raw
    if v = "" then st
    else (st.1 ++ [("code_metier", v)], setTextRel st.2 path v)
  | _, _ => st

/-- The `code_site` block: rebuild with the configured prefix when
requested, else preserve the existing before-hyphen prefix, else write
the bare value.  Note the applied-fields entry records the bare `value`. -/
def applySite (cmd : Cmd) (cfg : Config) (st : EngineSt) : EngineSt :=
  match cmd.lookup "code_site", cfg.mappings.lookup "code_site" with
  | some raw, some path =>
    let v := pstrip raw
    if v = "" then st
    else
      let curr := getTextRel st.2 path
      let w :=
        if cfg.rebuild ∧ cfg.siretPref ≠ "" then cfg.siretPref ++ "-" ++ v
        else if curr ≠ "" ∧ hasHyphen curr then beforeHyphen curr ++ "-" ++ v
        else v
      (st.1 ++ [("code_site", v)], setTextRel st.2 path w)
  | _, _ => st

/-- The first four blocks of `apply_command_mappings_ctx`. -/
def applyFirstFour (ctx : Elem) (cmd : Cmd) (cfg : Config) : EngineSt :=
  applyMetier cmd cfg (applyPersonne cmd cfg (applyStatut cmd cfg (applyCls cmd cfg ([], ctx))))

/-- `apply_command_mappings_ctx`: the five field blocks in order.
Returns the applied-fields list and the mutated tree. -/
def applyCommandMappingsCtx (ctx : Elem) (cmd : Cmd) (cfg : Config) : EngineSt :=
  applySite cmd cfg (applyFirstFour ctx cmd cfg)

/-! ### Summaries and the orchestrator -/

/-- A summary-dict value: the nine extracted fields are strings, the
`matched` flag is a boolean. -/
inductive SumVal where
  | str (s : String)
  | bool (b : Bool)
deriving Repr

/-- A summary record: Python dict in insertion order. -/
abbrev Summary := List (String × SumVal)

/-- `summarize_ctx`: the nine extracted string fields, in insertion order. -/
def summarizeCtx (ctx : Elem) : Summary :=
  [("OrderId", .str (extractOrderIdCtx ctx)),
   ("AssignmentId", .str (extractAssignmentIdCtx ctx)),
   ("EU", .str (getTextRel ctx [hrQ "ReferenceInformation", hrQ "StaffingCustomerId", hrQ "IdValue"])),
   ("OrgUnit", .str (getTextRel ctx [hrQ "ReferenceInformation", hrQ "StaffingCustomerOrgUnitId", hrQ "IdValue"])),
   ("Agency", .str (getTextRel ctx [hrQ "ReferenceInformation", hrQ "AgencyId", hrQ "IdValue"])),
   ("StatusCode", .str (getTextRel ctx [hrQ "PositionCharacteristics", hrQ "PositionStatus", hrQ "Code"])),
   ("PositionLevel", .str (getTextRel ctx levelSegs)),
   ("PositionCoefficient", .str (getTextRel ctx coeffSegs)),
   ("PersonReplaced", .str (getTextRel ctx [hrQ "ContractInformation", hrQ "ContractLegalReason", hrQ "PersonReplaced"]))]

/-- A summary with the `matched` flag appended (`s["matched"] = bool(cmd_row)`). -/
def mkSummary (ctx : Elem) (matched : Bool) : Summary :=
  summarizeCtx ctx ++ [("matched", .bool matched)]

/-- The order-records mapping (`cmd_records`), keyed by Order Identifier. -/
abbrev Records := List (String × Cmd)

/-- The normalization part of `process_all`'s per-context loop. -/
def normStep (tree : Elem) (p : Pos) (cfg : Config) : Elem :=
  if cfg.normalizeCoeff then
    modifyAt tree p (fun s => (normalizeClassificationCtx s cfg.classMatch).2.2)
  else tree

/-- The body of `process_all`'s per-context loop, acting on the whole
tree at context position `p`: optional normalization, Order-Identifier
lookup, mapping application when a (Python-truthy, i.e. non-empty)
record matches, then the summary of the mutated context. -/
def processOneCtx (tree : Elem) (p : Pos) (records : Records) (cfg : Config) :
    Elem × Summary :=
  let tree1 :=
    if cfg.normalizeCoeff then
      modifyAt tree p (fun s => (normalizeClassificationCtx s cfg.classMatch).2.2)
    else tree
  let key := extractOrderIdCtx (subAt tree1 p)
  let row? := if key = "" then none else records.lookup key
  match row? with
  | some row =>
    if row.isEmpty then (tree1, mkSummary (subAt tree1 p) false)
    else
      let tree2 := modifyAt tree1 p (fun s => (applyCommandMappingsCtx s row cfg).2)
      (tree2, mkSummary (subAt tree2 p) true)
  | none => (tree1, mkSummary (subAt tree1 p) false)

/-- `process_all`'s loop over the discovered context positions (which are
stable under the engine's append-only mutations, as lxml element
references are). -/
def processAllGo (tree : Elem) (ps : List Pos) (records : Records) (cfg : Config) :
    Elem × List Summary :=
  match ps with
  | [] => (tree, [])
  | p :: rest =>
    let (t1, s) := processOneCtx tree p records cfg
    let (t2, ss) := processAllGo t1 rest records cfg
    (t2, s :: ss)

/-- `process_all` (serialization, which the model treats as the identity
on the tree, and the display-only diff are omitted). -/
def processAll (root : Elem) (records : Records) (cfg : Config) :
    Elem × List Summary :=
  processAllGo root (findContractContexts root) records cfg

/-- `extract_order_id`: Order Identifier of the first contract context,
`""` when there is none. -/
def extractOrderId (root : Elem) : String :=
  match findContractContexts root with
  | [] => ""
  | p :: _ => extractOrderIdCtx (subAt root p)

/-! ### Splitter -/

/-- Removal directives that address the first child (`0 :: r ↦ r`). -/
def posAt0 (rs : List Pos) : List Pos :=
  rs.filterMap (fun r => match r with | 0 :: r₂ => some r₂ | _ => none)

/-- Removal directives shifted past the first child (`(j+1) :: r ↦ j :: r`). -/
def posShift (rs : List Pos) : List Pos :=
  rs.filterMap (fun r =>
    match r with | (j + 1) :: r₂ => some (j :: r₂) | _ => none)

mutual
/-- Remove the subtrees at the given (original-tree) positions, in one
pass.  Models lxml's by-reference `parent.remove(ctx_copy)` loop: a
directive at the root (`[]`, lxml's `getparent() is None` case) is
ignored, directives inside an already removed subtree are vacuous. -/
def removeMany : Elem → List Pos → Elem
  | .mk t x cs, rs => .mk t x (removeManyList cs rs)

/-- Forest version of `removeMany`. -/
def removeManyList : List Elem → List Pos → List Elem
  | [], _ => []
  | c :: cs, rs =>
    if ([0] : Pos) ∈ rs then removeManyList cs (posShift rs)
    else removeMany c (posAt0 rs) :: removeManyList cs (posShift rs)
end

/-- 1-based sequence number, zero-padded to 3 digits (`f"{i:03d}"`). -/
def pad3 (n : Nat) : String :=
  let s := toString n
  ⟨List.replicate (3 - s.length) '0'⟩ ++ s

/-- Python `a or b` for strings. -/
def orBlank (s d : String) : String := if s = "" then d else s

/-- `posShift` iterated `j` times: the removal directives that enter child
`j` of a node are `posAt0 (posShiftIter j rs)`. -/
def posShiftIter : Nat → List Pos → List Pos
  | 0, rs => rs
  | j + 1, rs => posShiftIter j (posShift rs)

/-- `split_fixed_by_contract`: for each discovered context, deep-copy the
document, prune every other context from its parent, and pair the result
with the kept context's identifiers (placeholder-substituted when
blank).  `none` models the `IndexError` raised when the pruned copy has
no discoverable context left (`find_contract_contexts(tree_copy)[0]`). -/
def splitFixedByContract (root : Elem) : Option (List (String × String × Elem)) :=
  let ctxs := findContractContexts root
  (List.range ctxs.length).mapM (fun i =>
    let copy := removeMany root (ctxs.eraseIdx i)
    match findContractContexts copy with
    | [] => none
    | p :: _ =>
      let kept := subAt copy p
      some (orBlank (extractOrderIdCtx kept) ("NOORDER_" ++ pad3 (i + 1)),
            orBlank (extractAssignmentIdCtx kept) ("NOASSIGN_" ++ pad3 (i + 1)),
            copy))

/-- One iteration of the splitter's loop: the copy pruned for the `i`-th
discovered context, paired with its identifiers (`splitFixedByContract`
is `mapM` of this over the discovery indices). -/
def splitStep (root : Elem) (i : Nat) : Option (String × String × Elem) :=
  let copy := removeMany root ((findContractContexts root).eraseIdx i)
  match findContractContexts copy with
  | [] => none
  | p :: _ =>
    let kept := subAt copy p
    some (orBlank (extractOrderIdCtx kept) ("NOORDER_" ++ pad3 (i + 1)),
          orBlank (extractAssignmentIdCtx kept) ("NOASSIGN_" ++ pad3 (i + 1)),
          copy)

/-! ### Characterization helpers (used to state the theorems) -/

/-- A position matches the chain `segs` relative to `ctx`
(propositional form of `matchChainB`). -/
def MatchChain (ctx : Elem) (segs : List String) (p : Pos) : Prop :=
  p ≠ [] ∧ ∃ ts, tagsAlong ctx p = some ts ∧ segs <:+ ts

/-- Append a fresh chain of childless elements with the given tags below
position `p`, each as the last child of the previous one. -/
def appendChainAt (e : Elem) (p : Pos) : List String → Elem
  | [] => e
  | t :: ts =>
    appendChainAt (appendChildAt e p (Elem.mk t none [])) (p ++ [childCountAt e p]) ts

/-- The position of the terminal node of the chain appended by
`appendChainAt` (equals `p` for the empty chain). -/
def chainTerminal (e : Elem) (p : Pos) : List String → Pos
  | [] => p
  | t :: ts =>
    chainTerminal (appendChildAt e p (Elem.mk t none [])) (p ++ [childCountAt e p]) ts

/-- The positions of all nodes of the chain appended by `appendChainAt`. -/
def chainPs (e : Elem) (p : Pos) : List String → List Pos
  | [] => []
  | t :: ts =>
    (p ++ [childCountAt e p]) ::
      chainPs (appendChildAt e p (Elem.mk t none [])) (p ++ [childCountAt e p]) ts

/-- The length of the longest nonempty leading prefix of `segs` that
resolves (has a match) below `ctx`; `0` when even the first segment does
not resolve. -/
def longestResolvable (ctx : Elem) (segs : List String) : Nat :=
  ((List.range (segs.length + 1)).filter
    (fun n => n ≠ 0 ∧ findAllPos ctx (segs.take n) ≠ [])).foldr max 0

/-- The parent node `ensure_node_rel` restarts creation from: the first
match of the longest resolvable prefix (the context itself when no
prefix resolves). -/
def reuseParent (ctx : Elem) (segs : List String) : Pos :=
  if longestResolvable ctx segs = 0 then []
  else (findAllPos ctx (segs.take (longestResolvable ctx segs))).headD []

/-- The value written at the `code_site` mapped path, as the spec words
it: the configured prefix when a rebuild is requested and a
`siret_prefix` is supplied, else the current value's before-first-hyphen
part when the current value contains a hyphen, else the bare value. -/
def siteWritten (cfg : Config) (curr v : String) : String :=
  if cfg.rebuild ∧ cfg.siretPref ≠ "" then cfg.siretPref ++ "-" ++ v
  else if hasHyphen curr then beforeHyphen curr ++ "-" ++ v
  else v

/-- The translated `statut` value: `statut_map` translation with
pass-through, empty when the trimmed raw value is empty. -/
def statutVal (cfg : Config) (raw : String) : String :=
  let r := pstrip raw
  if r = "" then "" else (cfg.statutMap.lookup r).getD r

/-- Applied-fields entries contributed by the `classification_interimaire`
block (they depend only on the record and the configuration). -/
def clsEntries (cmd : Cmd) (cfg : Config) : Cmd :=
  match cmd.lookup "classification_interimaire",
        cfg.mappings.lookup "classification_interimaire" with
  | some raw, some _ =>
    if pstrip raw = "" then [] else [("classification_interimaire", pstrip raw)]
  | _, _ => []

/-- Applied-fields entries contributed by the `statut` block. -/
def statutEntries (cmd : Cmd) (cfg : Config) : Cmd :=
  match cmd.lookup "statut", cfg.mappings.lookup "statut" with
  | some raw, some _ =>
    if statutVal cfg raw = "" then [] else [("statut", statutVal cfg raw)]
  | _, _ => []

/-- Applied-fields entries contributed by the `personne_absente` block. -/
def personneEntries (cmd : Cmd) (cfg : Config) : Cmd :=
  match cmd.lookup "personne_absente", cfg.mappings.lookup "personne_absente" with
  | some raw, some _ =>
    if pstrip raw = "" then []
    else [("personne_absente", pstrip raw), ("recourse_type", "01")]
  | _, _ => []

/-- Applied-fields entries contributed by the `code_metier` block. -/
def metierEntries (cmd : Cmd) (cfg : Config) : Cmd :=
  match cmd.lookup "code_metier", cfg.mappings.lookup "code_metier" with
  | some raw, some _ =>
    if pstrip raw = "" then [] else [("code_metier", pstrip raw)]
  | _, _ => []

/-- Applied-fields entries contributed by the `code_site` block: note the
recorded value is the bare trimmed incoming value. -/
def siteEntries (cmd : Cmd) (cfg : Config) : Cmd :=
  match cmd.lookup "code_site", cfg.mappings.lookup "code_site" with
  | some raw, some _ =>
    if pstrip raw = "" then [] else [("code_site", pstrip raw)]
  | _, _ => []

mutual
/-- Number of contract contexts (elements with a marker child) in the
subtree of `e`. -/
def ctxCount : Elem → Nat
  | .mk _ _ cs => (if cs.any isMarker then 1 else 0) + ctxCountList cs

/-- Forest version of `ctxCount`. -/
def ctxCountList : List Elem → Nat
  | [] => 0
  | c :: cs => ctxCount c + ctxCountList cs
end

/-! ### Concrete documents used by the witnesses and counterexamples -/

/-- An `IdValue` leaf. -/
def exIdValue (s : String) : Elem := Elem.mk (hrQ "IdValue") (some s) []

/-- A well-formed contract marker with the given identifiers. -/
def exMarker (o a : String) : Elem :=
  Elem.mk (hrQ "ReferenceInformation") none
    [Elem.mk (hrQ "OrderId") none [exIdValue o],
     Elem.mk (hrQ "AssignmentId") none [exIdValue a]]

/-- A contract context with identifiers and a position level / coefficient. -/
def exCtx (o a lvl coeff : String) : Elem :=
  Elem.mk (hrQ "Order") none
    [exMarker o a,
     Elem.mk (hrQ "PositionCharacteristics") none
       ((if lvl = "" then [] else [Elem.mk (hrQ "PositionLevel") (some lvl) []]) ++
        (if coeff = "" then [] else [Elem.mk (hrQ "PositionCoefficient") (some coeff) []]))]

/-- A document with two sibling contracts of identical tag structure but
distinct identifiers. -/
def exDoc2 : Elem :=
  Elem.mk (hrQ "Envelope") none [exCtx "CMD1" "ASG1" "B7" "", exCtx "CMD2" "ASG2" "B7" ""]

/-- A document with NESTED contract contexts: the outer element holds a
marker and also contains an inner element with its own marker. -/
def exNested : Elem :=
  Elem.mk "doc" none
    [Elem.mk "outer" none [exMarker "A" "A2", Elem.mk "inner" none [exMarker "B" "B2"]]]

/-- The mapped path used in the `code_site` examples. -/
def exSiteSegs : List String := [hrQ "CustomerReferences", hrQ "SiteId"]

/-- A context whose mapped site field currently holds `"123-OLD"`. -/
def exCtxSite : Elem :=
  Elem.mk (hrQ "Order") none
    [exMarker "C1" "A1",
     Elem.mk (hrQ "CustomerReferences") none
       [Elem.mk (hrQ "SiteId") (some "123-OLD") []]]

/-- A configuration mapping `code_site` to `exSiteSegs`, no rebuild. -/
def exCfgSite : Config :=
  { mappings := [("code_site", exSiteSegs)], statutMap := [],
    rebuild := false, siretPref := "", normalizeCoeff := true,
    classMatch := defaultClassMatch }

/-! sanity examples -/

example :
    subtreePos (Elem.mk "a" none [Elem.mk "b" none [Elem.mk "d" none []], Elem.mk "c" none []]) =
      [[], [0], [0, 0], [1]] := by decide

example :
    findAllPos (Elem.mk "r" none [Elem.mk "a" none [Elem.mk "b" (some " x ") []]]) ["a", "b"] =
      [[0, 0]] := by decide

example :
    getTextRel (Elem.mk "r" none [Elem.mk "a" none [Elem.mk "b" (some " x ") []]]) ["a", "b"] =
      "x" := by decide

example :
    (setTextRel (Elem.mk "r" none []) ["a", "b"] "v") =
      Elem.mk "r" none [Elem.mk "a" none [Elem.mk "b" (some "v") []]] := rfl

/-! ## Lemmas: positions and the preorder listing -/

theorem subtreePosList_shape :
    ∀ (cs : List Elem) (k : Nat) (p : Pos), p ∈ subtreePosList k cs →
      ∃ i q, p = i :: q ∧ k ≤ i := by
  intro cs
  induction cs with
  | nil => intro k p hp; simp [subtreePosList] at hp
  | cons c cs ih =>
    intro k p hp
    simp only [subtreePosList, List.mem_append, List.mem_map] at hp
    rcases hp with ⟨q, _, rfl⟩ | hp
    · exact ⟨k, q, rfl, Nat.le_refl k⟩
    · obtain ⟨i, q, rfl, hki⟩ := ih (k + 1) p hp
      exact ⟨i, q, rfl, by omega⟩

theorem mem_subtreePosList :
    ∀ (cs : List Elem) (k i : Nat) (q : Pos),
      (i :: q) ∈ subtreePosList k cs ↔
        k ≤ i ∧ ∃ c, cs[i - k]? = some c ∧ q ∈ subtreePos c := by
  intro cs
  induction cs with
  | nil => intro k i q; simp [subtreePosList]
  | cons c cs ih =>
    intro k i q
    simp only [subtreePosList, List.mem_append, List.mem_map]
    constructor
    · rintro (⟨q', hq', heq⟩ | h)
      · obtain ⟨rfl, rfl⟩ : k = i ∧ q' = q := by
          injection heq with h1 h2; exact ⟨h1, h2⟩
        refine ⟨Nat.le_refl k, c, ?_, hq'⟩
        simp
      · obtain ⟨hki, c', hc', hq⟩ := (ih (k + 1) i q).1 h
        refine ⟨by omega, c', ?_, hq⟩
        have : i - k = (i - (k + 1)) + 1 := by omega
        rw [this, List.getElem?_cons_succ]
        exact hc'
    · rintro ⟨hki, c', hc', hq⟩
      rcases Nat.eq_or_lt_of_le hki with rfl | hlt
      · left
        simp only [Nat.sub_self, List.getElem?_cons_zero, Option.some.injEq] at hc'
        exact ⟨q, hc' ▸ hq, rfl⟩
      · right
        rw [ih (k + 1) i q]
        refine ⟨hlt, c', ?_, hq⟩
        have : i - k = (i - (k + 1)) + 1 := by omega
        rw [this, List.getElem?_cons_succ] at hc'
        exact hc'

theorem mem_subtreePos :
    ∀ (p : Pos) (e : Elem), p ∈ subtreePos e ↔ (e.get? p).isSome := by
  intro p
  induction p with
  | nil =>
    intro e; cases e with
    | mk t x cs => simp [subtreePos, Elem.get?]
  | cons i q ih =>
    intro e; cases e with
    | mk t x cs =>
      simp only [subtreePos, List.mem_cons]
      rw [mem_subtreePosList]
      simp only [Nat.zero_le, true_and, Nat.sub_zero, Elem.get?]
      constructor
      · rintro (h | ⟨c, hc, hq⟩)
        · exact absurd h (by simp)
        · rw [hc]
          exact (ih c).1 hq
      · intro h
        right
        cases hc : cs[i]? with
        | none => rw [hc] at h; simp at h
        | some c =>
          rw [hc] at h
          exact ⟨c, rfl, (ih c).2 h⟩

theorem subtreePosList_nodup (cs : List Elem)
    (h : ∀ c ∈ cs, (subtreePos c).Nodup) : ∀ k, (subtreePosList k cs).Nodup := by
  induction cs with
  | nil => intro k; simp [subtreePosList]
  | cons c cs ih =>
    intro k
    simp only [subtreePosList]
    refine List.Nodup.append ?_ (ih (fun c' hc' => h c' (by simp [hc'])) (k + 1)) ?_
    · exact (h c (by simp)).map (fun a b hab => by injection hab)
    · intro p hp1 hp2
      obtain ⟨q, _, rfl⟩ := List.mem_map.1 hp1
      obtain ⟨i, q', heq, hki⟩ := subtreePosList_shape cs (k + 1) _ hp2
      injection heq with h1 _
      omega

theorem subtreePos_nodup_aux :
    ∀ (n : Nat) (e : Elem), sizeOf e ≤ n → (subtreePos e).Nodup := by
  intro n
  induction n with
  | zero =>
    intro e h; cases e with
    | mk t x cs => simp at h
  | succ n ih =>
    intro e h; cases e with
    | mk t x cs =>
      simp only [subtreePos, List.nodup_cons]
      constructor
      · intro hmem
        obtain ⟨i, q, heq, _⟩ := subtreePosList_shape cs 0 _ hmem
        exact absurd heq (by simp)
      · refine subtreePosList_nodup cs (fun c hc => ih c ?_) 0
        have h1 : sizeOf c < sizeOf cs := List.sizeOf_lt_of_mem hc
        simp at h
        omega

theorem subtreePos_nodup (e : Elem) : (subtreePos e).Nodup :=
  subtreePos_nodup_aux (sizeOf e) e (Nat.le_refl _)

/-! ## Lemmas: tag paths -/

theorem tagsAlong_nil (e : Elem) : tagsAlong e [] = some [] := by
  cases e <;> rfl

theorem tagsAlong_isSome :
    ∀ (p : Pos) (e : Elem), (tagsAlong e p).isSome ↔ (e.get? p).isSome := by
  intro p
  induction p with
  | nil => intro e; cases e <;> simp [tagsAlong, Elem.get?]
  | cons i q ih =>
    intro e; cases e with
    | mk t x cs =>
      simp only [tagsAlong, Elem.get?]
      cases cs[i]? with
      | none => simp
      | some c => simp [ih c]

theorem tagsAlong_length :
    ∀ (p : Pos) (e : Elem) (ts : List String),
      tagsAlong e p = some ts → ts.length = p.length := by
  intro p
  induction p with
  | nil =>
    intro e ts h
    rw [tagsAlong_nil] at h
    cases h
    rfl
  | cons i q ih =>
    intro e ts h
    cases e with
    | mk t x cs =>
      simp only [tagsAlong] at h
      cases hc : cs[i]? with
      | none => rw [hc] at h; cases h
      | some c =>
        rw [hc] at h
        obtain ⟨us, hus, rfl⟩ := Option.map_eq_some'.1 h
        simpa using ih c us hus

theorem tagsAlong_append :
    ∀ (p : Pos) (e s : Elem) (q : Pos) (ts us : List String),
      e.get? p = some s → tagsAlong e p = some ts → tagsAlong s q = some us →
      tagsAlong e (p ++ q) = some (ts ++ us) := by
  intro p
  induction p with
  | nil =>
    intro e s q ts us hg ht hu
    rw [Elem.get?] at hg
    cases hg
    rw [tagsAlong_nil] at ht
    cases ht
    simpa using hu
  | cons i p' ih =>
    intro e s q ts us hg ht hu
    cases e with
    | mk t x cs =>
      cases hc : cs[i]? with
      | none => simp only [tagsAlong, hc] at ht; cases ht
      | some c =>
        simp only [Elem.get?, tagsAlong, hc, List.cons_append] at hg ht ⊢
        obtain ⟨ts', hts', rfl⟩ := Option.map_eq_some'.1 ht
        rw [show p'.append q = p' ++ q from rfl, ih c s q ts' us hg hts' hu]
        rfl

theorem tagsAlong_take :
    ∀ (p : Pos) (e : Elem) (ts : List String) (n : Nat),
      tagsAlong e p = some ts → tagsAlong e (p.take n) = some (ts.take n) := by
  intro p
  induction p with
  | nil =>
    intro e ts n h
    rw [tagsAlong_nil] at h
    cases h
    simpa using tagsAlong_nil e
  | cons i p' ih =>
    intro e ts n h
    cases e with
    | mk t x cs =>
      simp only [tagsAlong] at h
      cases hc : cs[i]? with
      | none => rw [hc] at h; cases h
      | some c =>
        rw [hc] at h
        obtain ⟨ts', hts', rfl⟩ := Option.map_eq_some'.1 h
        cases n with
        | zero => simpa using tagsAlong_nil (Elem.mk t x cs)
        | succ m =>
          simp only [List.take_succ_cons, tagsAlong, hc, ih c ts' m hts']
          rfl

/-! ## Lemmas: local modification -/

theorem get?_modifyAt_append :
    ∀ (p : Pos) (e s : Elem) (f : Elem → Elem) (r : Pos),
      e.get? p = some s → (modifyAt e p f).get? (p ++ r) = (f s).get? r := by
  intro p
  induction p with
  | nil =>
    intro e s f r hg
    rw [Elem.get?] at hg
    cases hg
    rfl
  | cons i p' ih =>
    intro e s f r hg
    cases e with
    | mk t x cs =>
      simp only [Elem.get?, modifyAt] at hg ⊢
      cases hc : cs[i]? with
      | none => rw [hc] at hg; cases hg
      | some c =>
        rw [hc] at hg
        have hlt : i < cs.length := (List.getElem?_eq_some.1 hc).1
        simp only [List.cons_append, Elem.get?, List.getElem?_set_self hlt]
        exact ih c s f r hg

theorem get?_modifyAt_self (e s : Elem) (f : Elem → Elem) (p : Pos)
    (hg : e.get? p = some s) : (modifyAt e p f).get? p = some (f s) := by
  have := get?_modifyAt_append p e s f [] hg
  simpa using this

theorem get?_modifyAt_disjoint :
    ∀ (q p : Pos) (e : Elem) (f : Elem → Elem),
      ¬ p <+: q → ¬ q <+: p → (modifyAt e p f).get? q = e.get? q := by
  intro q
  induction q with
  | nil => intro p e f _ hqp; exact absurd (List.nil_prefix) hqp
  | cons j q' ih =>
    intro p e f hpq hqp
    cases p with
    | nil => exact absurd (List.nil_prefix) hpq
    | cons i p' =>
      cases e with
      | mk t x cs =>
        simp only [modifyAt]
        cases hc : cs[i]? with
        | none => rfl
        | some c =>
          by_cases hij : i = j
          · subst hij
            have hlt : i < cs.length := (List.getElem?_eq_some.1 hc).1
            simp only [Elem.get?, List.getElem?_set_self hlt, hc]
            exact ih p' c f (fun h => hpq (by simp [h])) (fun h => hqp (by simp [h]))
          · simp only [Elem.get?, List.getElem?_set_ne hij]

/-! ## Lemmas: appending a child -/

theorem tag_appendChildAt (e : Elem) (p : Pos) (c : Elem) :
    (appendChildAt e p c).tag = e.tag := by
  cases p with
  | nil => cases e <;> rfl
  | cons i p' =>
    cases e with
    | mk t x cs =>
      simp only [appendChildAt, modifyAt]
      cases cs[i]? <;> rfl

theorem tagsAlong_appendChild_old :
    ∀ (q p : Pos) (e c : Elem), (e.get? q).isSome →
      tagsAlong (appendChildAt e p c) q = tagsAlong e q := by
  intro q
  induction q with
  | nil => intro p e c _; rw [tagsAlong_nil, tagsAlong_nil]
  | cons j q' ih =>
    intro p e c hv
    cases p with
    | nil =>
      cases e with
      | mk t x cs =>
        simp only [appendChildAt, modifyAt, Elem.tag, Elem.text, Elem.children,
          tagsAlong, Elem.get?] at hv ⊢
        cases hc : cs[j]? with
        | none => rw [hc] at hv; simp at hv
        | some cj =>
          have hlt : j < cs.length := (List.getElem?_eq_some.1 hc).1
          rw [List.getElem?_append_left hlt, hc]
    | cons i p' =>
      cases e with
      | mk t x cs =>
        cases hc : cs[i]? with
        | none => simp only [appendChildAt, modifyAt, hc]
        | some ci =>
          have hlt : i < cs.length := (List.getElem?_eq_some.1 hc).1
          by_cases hij : i = j
          · subst hij
            simp only [Elem.get?, hc] at hv
            simp only [appendChildAt, modifyAt, hc, tagsAlong,
              List.getElem?_set_self hlt]
            rw [show modifyAt ci p' (fun s => Elem.mk s.tag s.text (s.children ++ [c])) =
                  appendChildAt ci p' c from rfl]
            rw [ih p' ci c hv, tag_appendChildAt ci p' c]
          · simp only [appendChildAt, modifyAt, hc, tagsAlong,
              List.getElem?_set_ne hij]

theorem get?_appendChild_new (p : Pos) (e s c : Elem) (hg : e.get? p = some s) :
    (appendChildAt e p c).get? (p ++ [s.children.length]) = some c := by
  have h1 := get?_modifyAt_append p e s (fun s => Elem.mk s.tag s.text (s.children ++ [c])) [s.children.length] hg
  rw [appendChildAt, h1]
  simp only [Elem.get?, Elem.children, List.getElem?_concat_length]

theorem get?_isSome_appendChild :
    ∀ (p : Pos) (e s : Elem) (tg : String) (q : Pos), e.get? p = some s →
      (((appendChildAt e p (Elem.mk tg none [])).get? q).isSome ↔
        (e.get? q).isSome ∨ q = p ++ [s.children.length]) := by
  intro p
  induction p with
  | nil =>
    intro e s tg q hg
    obtain rfl : e = s := by simpa [Elem.get?] using hg
    cases e with
    | mk t x cs =>
      simp only [appendChildAt, modifyAt, Elem.tag, Elem.text, Elem.children,
        List.nil_append]
      cases q with
      | nil => simp [Elem.get?]
      | cons j q' =>
        simp only [Elem.get?]
        by_cases hlt : j < cs.length
        · rw [List.getElem?_append_left hlt]
          have hne : ¬ (j :: q' = ([cs.length] : Pos)) := by
            intro h; injection h with h1 _; omega
          simp [hne]
        · by_cases heq : j = cs.length
          · subst heq
            rw [List.getElem?_concat_length,
              List.getElem?_eq_none (Nat.le_refl cs.length)]
            cases q' with
            | nil => simp [Elem.get?]
            | cons k q'' => simp [Elem.get?]
          · have h1 : (cs ++ [Elem.mk tg none []])[j]? = none := by
              apply List.getElem?_eq_none
              simp only [List.length_append, List.length_cons, List.length_nil]
              omega
            have h2 : cs[j]? = none := List.getElem?_eq_none (by omega)
            rw [h1, h2]
            have hne : ¬ (j :: q' = ([cs.length] : Pos)) := by
              intro h; injection h with h1 _; exact heq h1
            simp [hne]
  | cons i p' ih =>
    intro e s tg q hg
    cases e with
    | mk t x cs =>
      simp only [Elem.get?] at hg
      cases hc : cs[i]? with
      | none => rw [hc] at hg; cases hg
      | some ci =>
        rw [hc] at hg
        have hlt : i < cs.length := (List.getElem?_eq_some.1 hc).1
        simp only [appendChildAt, modifyAt, hc]
        cases q with
        | nil => simp [Elem.get?]
        | cons j q' =>
          by_cases hij : i = j
          · subst hij
            simp only [Elem.get?, List.getElem?_set_self hlt, hc]
            rw [show modifyAt ci p' (fun s => Elem.mk s.tag s.text (s.children ++ [Elem.mk tg none []])) =
                  appendChildAt ci p' (Elem.mk tg none []) from rfl]
            rw [ih ci s tg q' hg]
            have : (i :: q' = i :: p' ++ [s.children.length]) ↔ (q' = p' ++ [s.children.length]) := by
              simp
            rw [this]
          · simp only [Elem.get?, List.getElem?_set_ne hij]
            constructor
            · exact fun h => Or.inl h
            · rintro (h | h)
              · exact h
              · injection h with h1 _
                exact absurd h1.symm hij

theorem childCountAt_eq (e s : Elem) (p : Pos) (hg : e.get? p = some s) :
    childCountAt e p = s.children.length := by
  unfold childCountAt
  rw [hg]

theorem isSome_exists_get? (e : Elem) (p : Pos) (h : (e.get? p).isSome) :
    ∃ s, e.get? p = some s := Option.isSome_iff_exists.1 h

theorem tagsAlong_appendChild_new (p : Pos) (e s c : Elem) (ts : List String)
    (hg : e.get? p = some s) (ht : tagsAlong e p = some ts) :
    tagsAlong (appendChildAt e p c) (p ++ [s.children.length]) = some (ts ++ [c.tag]) := by
  have hvalid : (e.get? p).isSome := by rw [hg]; rfl
  have h1 : (appendChildAt e p c).get? p =
      some (Elem.mk s.tag s.text (s.children ++ [c])) :=
    get?_modifyAt_self e s _ p hg
  have h2 : tagsAlong (appendChildAt e p c) p = tagsAlong e p :=
    tagsAlong_appendChild_old p p e c hvalid
  have h3 : tagsAlong (Elem.mk s.tag s.text (s.children ++ [c])) [s.children.length] =
      some [c.tag] := by
    simp only [tagsAlong, Elem.children, List.getElem?_concat_length, tagsAlong_nil,
      Option.map_some']
  exact tagsAlong_append p (appendChildAt e p c) _ [s.children.length] ts [c.tag]
    h1 (h2.trans ht) h3

/-! ## Lemmas: appended chains -/

theorem get?_isSome_appendChild_next (e : Elem) (p : Pos) (tg : String)
    (h : (e.get? p).isSome) :
    ((appendChildAt e p (Elem.mk tg none [])).get? (p ++ [childCountAt e p])).isSome := by
  obtain ⟨s, hs⟩ := isSome_exists_get? e p h
  rw [childCountAt_eq e s p hs, get?_appendChild_new p e s _ hs]
  rfl

theorem tagsAlong_appendChain_old :
    ∀ (ts : List String) (e : Elem) (p q : Pos),
      (e.get? p).isSome → (e.get? q).isSome →
      tagsAlong (appendChainAt e p ts) q = tagsAlong e q := by
  intro ts
  induction ts with
  | nil => intro e p q _ _; rfl
  | cons t ts' ih =>
    intro e p q hp hq
    obtain ⟨s, hs⟩ := isSome_exists_get? e p hp
    simp only [appendChainAt]
    have hp' : ((appendChildAt e p (Elem.mk t none [])).get? (p ++ [childCountAt e p])).isSome :=
      get?_isSome_appendChild_next e p t hp
    have hq' : ((appendChildAt e p (Elem.mk t none [])).get? q).isSome :=
      ((get?_isSome_appendChild p e s t q hs).2 (Or.inl hq))
    rw [ih _ _ q hp' hq']
    exact tagsAlong_appendChild_old q p e _ hq

theorem get?_isSome_appendChain :
    ∀ (ts : List String) (e : Elem) (p q : Pos), (e.get? p).isSome →
      (((appendChainAt e p ts).get? q).isSome ↔
        (e.get? q).isSome ∨ q ∈ chainPs e p ts) := by
  intro ts
  induction ts with
  | nil => intro e p q _; simp [appendChainAt, chainPs]
  | cons t ts' ih =>
    intro e p q hp
    obtain ⟨s, hs⟩ := isSome_exists_get? e p hp
    simp only [appendChainAt, chainPs, List.mem_cons]
    have hp' : ((appendChildAt e p (Elem.mk t none [])).get? (p ++ [childCountAt e p])).isSome :=
      get?_isSome_appendChild_next e p t hp
    rw [ih _ _ q hp', get?_isSome_appendChild p e s t q hs,
      childCountAt_eq e s p hs]
    tauto

theorem get?_appendChain_terminal :
    ∀ (ts : List String) (e : Elem) (p : Pos), ts ≠ [] → (e.get? p).isSome →
      ∃ tg, (appendChainAt e p ts).get? (chainTerminal e p ts) =
        some (Elem.mk tg none []) := by
  intro ts
  induction ts with
  | nil => intro e p h _; exact absurd rfl h
  | cons t ts' ih =>
    intro e p _ hp
    obtain ⟨s, hs⟩ := isSome_exists_get? e p hp
    simp only [appendChainAt, chainTerminal]
    cases ts' with
    | nil =>
      refine ⟨t, ?_⟩
      simp only [appendChainAt, chainTerminal]
      rw [childCountAt_eq e s p hs]
      exact get?_appendChild_new p e s _ hs
    | cons u us =>
      exact ih _ _ (by simp) (get?_isSome_appendChild_next e p t hp)

theorem chainTerminal_mem_chainPs :
    ∀ (ts : List String) (e : Elem) (p : Pos), ts ≠ [] →
      chainTerminal e p ts ∈ chainPs e p ts := by
  intro ts
  induction ts with
  | nil => intro e p h; exact absurd rfl h
  | cons t ts' ih =>
    intro e p _
    simp only [chainTerminal, chainPs, List.mem_cons]
    cases ts' with
    | nil => left; rfl
    | cons u us => right; exact ih _ _ (by simp)

theorem tagsAlong_appendChain_chain :
    ∀ (ts : List String) (e : Elem) (p : Pos) (TP : List String) (q : Pos),
      (e.get? p).isSome → tagsAlong e p = some TP → q ∈ chainPs e p ts →
      ∃ j, j < ts.length ∧
        tagsAlong (appendChainAt e p ts) q = some (TP ++ ts.take (j + 1)) := by
  intro ts
  induction ts with
  | nil => intro e p TP q _ _ h; simp [chainPs] at h
  | cons t ts' ih =>
    intro e p TP q hp hTP hq
    obtain ⟨s, hs⟩ := isSome_exists_get? e p hp
    have hp' : ((appendChildAt e p (Elem.mk t none [])).get? (p ++ [childCountAt e p])).isSome :=
      get?_isSome_appendChild_next e p t hp
    have hTP' : tagsAlong (appendChildAt e p (Elem.mk t none []))
        (p ++ [childCountAt e p]) = some (TP ++ [t]) := by
      rw [childCountAt_eq e s p hs]
      exact tagsAlong_appendChild_new p e s _ TP hs hTP
    simp only [chainPs, List.mem_cons] at hq
    rcases hq with rfl | hq
    · refine ⟨0, by simp, ?_⟩
      simp only [appendChainAt]
      rw [tagsAlong_appendChain_old ts' _ _ _ hp' hp', hTP']
      simp
    · obtain ⟨j', hj', htags⟩ := ih _ _ (TP ++ [t]) q hp' hTP' hq
      refine ⟨j' + 1, by simpa using Nat.succ_lt_succ hj', ?_⟩
      simp only [appendChainAt]
      rw [htags]
      simp [List.take_succ_cons]

theorem tagsAlong_appendChain_terminal :
    ∀ (ts : List String) (e : Elem) (p : Pos) (TP : List String),
      (e.get? p).isSome → tagsAlong e p = some TP → ts ≠ [] →
      tagsAlong (appendChainAt e p ts) (chainTerminal e p ts) = some (TP ++ ts) := by
  intro ts
  induction ts with
  | nil => intro e p TP _ _ h; exact absurd rfl h
  | cons t ts' ih =>
    intro e p TP hp hTP _
    obtain ⟨s, hs⟩ := isSome_exists_get? e p hp
    have hp' : ((appendChildAt e p (Elem.mk t none [])).get? (p ++ [childCountAt e p])).isSome :=
      get?_isSome_appendChild_next e p t hp
    have hTP' : tagsAlong (appendChildAt e p (Elem.mk t none []))
        (p ++ [childCountAt e p]) = some (TP ++ [t]) := by
      rw [childCountAt_eq e s p hs]
      exact tagsAlong_appendChild_new p e s _ TP hs hTP
    cases ts' with
    | nil =>
      simp only [appendChainAt, chainTerminal]
      simpa using hTP'
    | cons u us =>
      show tagsAlong
          (appendChainAt (appendChildAt e p (Elem.mk t none []))
            (p ++ [childCountAt e p]) (u :: us))
          (chainTerminal (appendChildAt e p (Elem.mk t none []))
            (p ++ [childCountAt e p]) (u :: us)) = some (TP ++ t :: u :: us)
      rw [ih _ _ (TP ++ [t]) hp' hTP' (by simp)]
      simp

/-! ## Lemmas: suffixes of tag paths -/

theorem suffix_take_of_append_suffix {α : Type} (A B ts : List α)
    (h : A ++ B <:+ ts) : A <:+ ts.take (ts.length - B.length) := by
  obtain ⟨u, hu⟩ := h
  have h1 : (u ++ A) ++ B = ts := by rw [List.append_assoc]; exact hu
  have h2 : ts.take (ts.length - B.length) = u ++ A := by
    have hlen : ts.length - B.length = (u ++ A).length := by
      rw [← h1]; simp only [List.length_append]; omega
    rw [hlen, ← h1, List.take_left]
  rw [h2]
  exact ⟨u, rfl⟩

theorem suffix_split {α : Type} (C X Y : List α) (h : C <:+ X ++ Y)
    (hlen : Y.length ≤ C.length) :
    C.take (C.length - Y.length) <:+ X ∧ C = C.take (C.length - Y.length) ++ Y := by
  obtain ⟨u, hu⟩ := h
  have h1 : (u ++ C.take (C.length - Y.length)) ++ C.drop (C.length - Y.length) = X ++ Y := by
    rw [List.append_assoc, List.take_append_drop]
    exact hu
  have hlen2 : (C.drop (C.length - Y.length)).length = Y.length := by
    simp only [List.length_drop]
    omega
  obtain ⟨hXeq, hYeq⟩ := List.append_inj' h1 hlen2
  refine ⟨⟨u, hXeq⟩, ?_⟩
  conv_lhs => rw [← List.take_append_drop (C.length - Y.length) C]
  rw [hYeq]

/-! ## Lemmas: chain matching -/

theorem matchChainB_iff (ctx : Elem) (segs : List String) (p : Pos) :
    matchChainB ctx segs p = true ↔ MatchChain ctx segs p := by
  unfold matchChainB MatchChain
  cases p with
  | nil => simp
  | cons i q =>
    cases ht : tagsAlong ctx (i :: q) with
    | none => simp [ht]
    | some ts => simp [ht, List.isSuffixOf_iff_suffix]

theorem mem_findAllPos (ctx : Elem) (segs : List String) (p : Pos) :
    p ∈ findAllPos ctx segs ↔ MatchChain ctx segs p := by
  unfold findAllPos
  rw [List.mem_filter, matchChainB_iff]
  constructor
  · rintro ⟨_, h⟩; exact h
  · intro h
    refine ⟨?_, h⟩
    obtain ⟨_, ts, hts, _⟩ := h
    rw [mem_subtreePos, ← tagsAlong_isSome, hts]
    rfl

theorem findAllPos_eq_nil (ctx : Elem) (segs : List String) :
    findAllPos ctx segs = [] ↔ ∀ p, ¬ MatchChain ctx segs p := by
  rw [List.eq_nil_iff_forall_not_mem]
  constructor
  · intro h p hm; exact h p ((mem_findAllPos ctx segs p).2 hm)
  · intro h p hm; exact h p ((mem_findAllPos ctx segs p).1 hm)

theorem head_findAllPos (ctx : Elem) (segs : List String) (p : Pos) (tl : List Pos)
    (h : findAllPos ctx segs = p :: tl) : MatchChain ctx segs p := by
  have : p ∈ findAllPos ctx segs := by rw [h]; simp
  exact (mem_findAllPos ctx segs p).1 this

theorem match_take_of_append (ctx : Elem) (A B : List String) (p : Pos)
    (h : MatchChain ctx (A ++ B) p) (hA : A ≠ []) :
    MatchChain ctx A (p.take (p.length - B.length)) := by
  obtain ⟨hne, ts, hts, hsuf⟩ := h
  have hlen : ts.length = p.length := tagsAlong_length p ctx ts hts
  have h1 : A <:+ ts.take (ts.length - B.length) :=
    suffix_take_of_append_suffix A B ts hsuf
  have h2 : tagsAlong ctx (p.take (ts.length - B.length)) =
      some (ts.take (ts.length - B.length)) :=
    tagsAlong_take p ctx ts _ hts
  have hAB : A.length + B.length ≤ ts.length := by
    have := hsuf.length_le
    simpa using this
  rw [hlen] at h1 h2 hAB
  refine ⟨?_, ts.take (p.length - B.length), h2, h1⟩
  rw [Ne, List.take_eq_nil_iff]
  push_neg
  constructor
  · have : 1 ≤ A.length := by
      cases A with
      | nil => exact absurd rfl hA
      | cons a as => simp
    omega
  · exact hne

theorem no_match_append (ctx : Elem) (A : List String)
    (h : ∀ p, ¬ MatchChain ctx A p) (hA : A ≠ []) :
    ∀ (B : List String) (p : Pos), ¬ MatchChain ctx (A ++ B) p :=
  fun B p hm => h _ (match_take_of_append ctx A B p hm hA)

/-! ## Lemmas: longest resolvable prefix -/

theorem foldr_max_le_mem : ∀ (l : List Nat) (x : Nat), x ∈ l → x ≤ l.foldr max 0 := by
  intro l
  induction l with
  | nil => intro x h; simp at h
  | cons a l ih =>
    intro x h
    simp only [List.foldr_cons]
    rcases List.mem_cons.1 h with rfl | h
    · exact Nat.le_max_left _ _
    · exact Nat.le_trans (ih x h) (Nat.le_max_right _ _)

theorem foldr_max_mem : ∀ (l : List Nat), l.foldr max 0 = 0 ∨ l.foldr max 0 ∈ l := by
  intro l
  induction l with
  | nil => left; rfl
  | cons a l ih =>
    simp only [List.foldr_cons]
    rcases Nat.le_total a (l.foldr max 0) with h | h
    · rw [Nat.max_eq_right h]
      rcases ih with h0 | hm
      · left; exact h0
      · right; exact List.mem_cons_of_mem a hm
    · rw [Nat.max_eq_left h]
      right; exact List.mem_cons_self a l

theorem longestResolvable_le (ctx : Elem) (segs : List String) :
    longestResolvable ctx segs ≤ segs.length := by
  unfold longestResolvable
  rcases foldr_max_mem (((List.range (segs.length + 1)).filter
      (fun n => n ≠ 0 ∧ findAllPos ctx (segs.take n) ≠ []))) with h0 | hm
  · rw [h0]; exact Nat.zero_le _
  · have h1 := (List.mem_filter.1 hm).1
    rw [List.mem_range] at h1
    omega

theorem longestResolvable_resolves (ctx : Elem) (segs : List String)
    (h : longestResolvable ctx segs ≠ 0) :
    findAllPos ctx (segs.take (longestResolvable ctx segs)) ≠ [] := by
  rcases foldr_max_mem (((List.range (segs.length + 1)).filter
      (fun n => n ≠ 0 ∧ findAllPos ctx (segs.take n) ≠ []))) with h0 | hm
  · exact absurd h0 h
  · have h2 := (List.mem_filter.1 hm).2
    simp only [ne_eq, decide_not, Bool.and_eq_true, Bool.not_eq_true',
      decide_eq_false_iff_not, decide_eq_true_eq] at h2
    exact h2.2

theorem longestResolvable_max (ctx : Elem) (segs : List String) (n : Nat)
    (h1 : n ≠ 0) (h2 : n ≤ segs.length) (h3 : findAllPos ctx (segs.take n) ≠ []) :
    n ≤ longestResolvable ctx segs := by
  apply foldr_max_le_mem
  rw [List.mem_filter, List.mem_range]
  refine ⟨by omega, ?_⟩
  simp only [ne_eq, decide_not, Bool.and_eq_true, Bool.not_eq_true',
    decide_eq_false_iff_not, decide_eq_true_eq]
  exact ⟨h1, h3⟩

theorem resolvable_of_le (ctx : Elem) (segs : List String) (n m : Nat)
    (hm : 1 ≤ m) (hmn : m ≤ n) (hn : n ≤ segs.length)
    (hres : findAllPos ctx (segs.take n) ≠ []) :
    findAllPos ctx (segs.take m) ≠ [] := by
  obtain ⟨p, hp⟩ : ∃ p, p ∈ findAllPos ctx (segs.take n) := by
    cases hfa : findAllPos ctx (segs.take n) with
    | nil => exact absurd hfa hres
    | cons a l => exact ⟨a, hfa ▸ List.mem_cons_self a l⟩
  have hmatch := (mem_findAllPos ctx _ p).1 hp
  have hdecomp : segs.take n = segs.take m ++ ((segs.take n).drop m) := by
    conv_lhs => rw [← List.take_append_drop m (segs.take n)]
    rw [List.take_take, Nat.min_eq_left hmn]
  rw [hdecomp] at hmatch
  have hne : segs.take m ≠ [] := by
    rw [Ne, List.take_eq_nil_iff]
    push_neg
    refine ⟨by omega, ?_⟩
    intro hnil
    rw [hnil] at hn
    simp at hn
    omega
  intro hnil
  exact (findAllPos_eq_nil ctx (segs.take m)).1 hnil _
    (match_take_of_append ctx (segs.take m) _ p hmatch hne)

/-! ## Lemmas: the chain builders commute with snoc -/

theorem appendChainAt_snoc :
    ∀ (ts : List String) (e : Elem) (p : Pos) (q : String),
      appendChainAt e p (ts ++ [q]) =
        appendChildAt (appendChainAt e p ts) (chainTerminal e p ts)
          (Elem.mk q none []) := by
  intro ts
  induction ts with
  | nil => intro e p q; rfl
  | cons u us ih =>
    intro e p q
    simp only [List.cons_append, appendChainAt, chainTerminal]
    exact ih _ _ q

theorem chainTerminal_snoc :
    ∀ (ts : List String) (e : Elem) (p : Pos) (q : String),
      chainTerminal e p (ts ++ [q]) =
        chainTerminal e p ts ++
          [childCountAt (appendChainAt e p ts) (chainTerminal e p ts)] := by
  intro ts
  induction ts with
  | nil => intro e p q; rfl
  | cons u us ih =>
    intro e p q
    simp only [List.cons_append, appendChainAt, chainTerminal]
    exact ih _ _ q

/-! ## The ensure walk: after the first miss every re-resolution misses -/

theorem no_match_mutated (ctx0 : Elem) (P : Pos) (pre : List String) (h : String)
    (tl : List String) (q : String)
    (hP : (ctx0.get? P).isSome)
    (hnoM : ∀ p, ¬ MatchChain ctx0 (pre ++ [h]) p) :
    findAllPos (appendChainAt ctx0 P (h :: tl)) ((pre ++ h :: tl) ++ [q]) = [] := by
  rw [findAllPos_eq_nil]
  intro p hm
  obtain ⟨hne, ts, hts, hsuf⟩ := hm
  have hvalid : ((appendChainAt ctx0 P (h :: tl)).get? p).isSome := by
    rw [← tagsAlong_isSome, hts]; rfl
  rw [get?_isSome_appendChain (h :: tl) ctx0 P p hP] at hvalid
  rcases hvalid with hold | hnew
  · -- an old node: its tag path is unchanged, so the match would already
    -- have existed in `ctx0`, contradicting the first miss
    have htags_old : tagsAlong (appendChainAt ctx0 P (h :: tl)) p = tagsAlong ctx0 p :=
      tagsAlong_appendChain_old (h :: tl) ctx0 P p hP hold
    have hm0 : MatchChain ctx0 ((pre ++ [h]) ++ (tl ++ [q])) p := by
      refine ⟨hne, ts, by rw [← htags_old]; exact hts, ?_⟩
      have heq : (pre ++ [h]) ++ (tl ++ [q]) = (pre ++ h :: tl) ++ [q] := by simp
      rw [heq]
      exact hsuf
    exact no_match_append ctx0 (pre ++ [h]) hnoM (by simp) _ p hm0
  · -- a freshly created chain node: its tag path is the parent's tag path
    -- followed by a prefix of the created tags, forcing the first missed
    -- prefix to match at an ancestor of the reused parent — contradiction
    obtain ⟨TP, hTP⟩ : ∃ TP, tagsAlong ctx0 P = some TP :=
      Option.isSome_iff_exists.1 ((tagsAlong_isSome P ctx0).2 hP)
    obtain ⟨j, hj, htags⟩ := tagsAlong_appendChain_chain (h :: tl) ctx0 P TP p hP hTP hnew
    rw [htags] at hts
    obtain rfl : TP ++ (h :: tl).take (j + 1) = ts := Option.some.inj hts
    have hj' : j < tl.length + 1 := by simpa using hj
    have hjlen : ((h :: tl).take (j + 1)).length = j + 1 := by
      rw [List.length_take]
      simp only [List.length_cons]
      omega
    have hClen : ((pre ++ h :: tl) ++ [q]).length = pre.length + tl.length + 2 := by
      simp only [List.length_append, List.length_cons, List.length_nil]
      omega
    have hYle : ((h :: tl).take (j + 1)).length ≤ ((pre ++ h :: tl) ++ [q]).length := by
      rw [hjlen, hClen]
      simp only [List.length_cons] at hj
      omega
    obtain ⟨hpref, _⟩ :=
      suffix_split ((pre ++ h :: tl) ++ [q]) TP ((h :: tl).take (j + 1)) hsuf hYle
    rw [hjlen, hClen] at hpref
    have hCdecomp : ((pre ++ h :: tl) ++ [q]).take (pre.length + tl.length + 2 - (j + 1)) =
        (pre ++ [h]) ++
          ((tl ++ [q]).take (pre.length + tl.length + 2 - (j + 1) - (pre.length + 1))) := by
      rw [show (pre ++ h :: tl) ++ [q] = (pre ++ [h]) ++ (tl ++ [q]) by simp]
      rw [List.take_append_eq_append_take]
      congr 1
      · apply List.take_of_length_le
        simp only [List.length_append, List.length_cons, List.length_nil]
        simp only [List.length_cons] at hj
        omega
      · congr 1
        simp only [List.length_append, List.length_cons, List.length_nil]
    rw [hCdecomp] at hpref
    have hmatch := suffix_take_of_append_suffix (pre ++ [h]) _ TP hpref
    have hTPlen : TP.length = P.length := tagsAlong_length P ctx0 TP hTP
    have htake := tagsAlong_take P ctx0 TP
      (TP.length -
        ((tl ++ [q]).take (pre.length + tl.length + 2 - (j + 1) - (pre.length + 1))).length) hTP
    have hsuflen := hpref.length_le
    simp only [List.length_append, List.length_cons, List.length_nil] at hsuflen
    apply hnoM (P.take (TP.length -
      ((tl ++ [q]).take (pre.length + tl.length + 2 - (j + 1) - (pre.length + 1))).length))
    refine ⟨?_, _, htake, hmatch⟩
    rw [Ne, List.take_eq_nil_iff]
    push_neg
    constructor
    · omega
    · intro hPnil
      rw [hPnil] at hTPlen
      simp only [List.length_nil] at hTPlen
      omega

theorem ensureLoop_create :
    ∀ (rest : List String) (ctx0 : Elem) (P : Pos) (pre : List String)
      (h : String) (tl : List String),
      (ctx0.get? P).isSome →
      (∀ p, ¬ MatchChain ctx0 (pre ++ [h]) p) →
      ensureLoop (appendChainAt ctx0 P (h :: tl)) (chainTerminal ctx0 P (h :: tl))
          (pre ++ h :: tl) rest =
        (appendChainAt ctx0 P (h :: (tl ++ rest)),
         chainTerminal ctx0 P (h :: (tl ++ rest))) := by
  intro rest
  induction rest with
  | nil =>
    intro ctx0 P pre h tl hP hnoM
    simp [ensureLoop]
  | cons q rest' ih =>
    intro ctx0 P pre h tl hP hnoM
    have hkey := no_match_mutated ctx0 P pre h tl q hP hnoM
    simp only [ensureLoop, hkey]
    rw [← appendChainAt_snoc (h :: tl) ctx0 P q, ← chainTerminal_snoc (h :: tl) ctx0 P q]
    have hlist1 : (h :: tl) ++ [q] = h :: (tl ++ [q]) := by simp
    have hlist2 : (pre ++ h :: tl) ++ [q] = pre ++ h :: (tl ++ [q]) := by simp
    rw [hlist1, hlist2, ih ctx0 P pre h (tl ++ [q]) hP hnoM]
    simp

theorem take_succ_getElem (segs : List String) (k : Nat) (hk : k < segs.length) :
    segs.take k ++ [segs[k]] = segs.take (k + 1) := by
  rw [List.take_succ, List.getElem?_eq_getElem hk]
  rfl

theorem ensureLoop_phase1 :
    ∀ (n : Nat) (ctx : Elem) (segs : List String) (k : Nat) (parent : Pos),
      n = segs.length - k →
      k ≤ longestResolvable ctx segs →
      findAllPos ctx segs = [] →
      segs ≠ [] →
      ((k = 0 ∧ parent = []) ∨
        (k ≠ 0 ∧ ∃ tl, findAllPos ctx (segs.take k) = parent :: tl)) →
      ensureLoop ctx parent (segs.take k) (segs.drop k) =
        (appendChainAt ctx (reuseParent ctx segs)
          (segs.drop (longestResolvable ctx segs)),
         chainTerminal ctx (reuseParent ctx segs)
          (segs.drop (longestResolvable ctx segs))) := by
  intro n
  induction n with
  | zero =>
    intro ctx segs k parent hn hkL hfull hne hinv
    -- impossible: k ≤ L < segs.length forces a nonzero remainder
    exfalso
    have hL_le := longestResolvable_le ctx segs
    have hLlt : longestResolvable ctx segs < segs.length := by
      rcases Nat.eq_or_lt_of_le hL_le with heq | hlt
      · have hL0 : longestResolvable ctx segs ≠ 0 := by
          intro h0
          rw [h0] at heq
          exact hne (List.eq_nil_of_length_eq_zero heq.symm)
        have := longestResolvable_resolves ctx segs hL0
        rw [heq, List.take_of_length_le (Nat.le_refl _)] at this
        exact absurd hfull this
      · exact hlt
    omega
  | succ n' ih =>
    intro ctx segs k parent hn hkL hfull hne hinv
    have hL_le := longestResolvable_le ctx segs
    have hLlt : longestResolvable ctx segs < segs.length := by
      rcases Nat.eq_or_lt_of_le hL_le with heq | hlt
      · have hL0 : longestResolvable ctx segs ≠ 0 := by
          intro h0
          rw [h0] at heq
          exact hne (List.eq_nil_of_length_eq_zero heq.symm)
        have := longestResolvable_resolves ctx segs hL0
        rw [heq, List.take_of_length_le (Nat.le_refl _)] at this
        exact absurd hfull this
      · exact hlt
    have hklt : k < segs.length := by omega
    rw [List.drop_eq_getElem_cons hklt]
    rcases Nat.eq_or_lt_of_le hkL with hkeq | hklt2
    · -- k = L: the next prefix misses; switch to creation mode
      have hmiss : findAllPos ctx (segs.take (k + 1)) = [] := by
        by_contra hneq
        have := longestResolvable_max ctx segs (k + 1) (by omega) (by omega) hneq
        omega
      have hmiss' : findAllPos ctx (segs.take k ++ [segs[k]]) = [] := by
        rw [take_succ_getElem segs k hklt]
        exact hmiss
      simp only [ensureLoop, hmiss']
      have hP : (ctx.get? parent).isSome := by
        rcases hinv with ⟨_, rfl⟩ | ⟨_, tl, hfa⟩
        · rfl
        · obtain ⟨_, ts, hts, _⟩ := head_findAllPos ctx _ parent tl hfa
          rw [← tagsAlong_isSome, hts]
          rfl
      have hnoM : ∀ p, ¬ MatchChain ctx (segs.take k ++ [segs[k]]) p := by
        rw [take_succ_getElem segs k hklt]
        exact (findAllPos_eq_nil ctx _).1 hmiss
      have hcreate := ensureLoop_create (segs.drop (k + 1)) ctx parent
        (segs.take k) segs[k] [] hP hnoM
      have hstep : ensureLoop (appendChildAt ctx parent (Elem.mk segs[k] none []))
          (parent ++ [childCountAt ctx parent]) (segs.take k ++ [segs[k]])
          (segs.drop (k + 1)) =
          (appendChainAt ctx parent (segs[k] :: segs.drop (k + 1)),
           chainTerminal ctx parent (segs[k] :: segs.drop (k + 1))) := by
        simpa [appendChainAt, chainTerminal] using hcreate
      rw [hstep]
      have hdropk : segs[k] :: segs.drop (k + 1) = segs.drop k :=
        (List.drop_eq_getElem_cons hklt).symm
      rw [hdropk, ← hkeq]
      have hparent : parent = reuseParent ctx segs := by
        rcases hinv with ⟨hk0, rfl⟩ | ⟨hk0, tl, hfa⟩
        · unfold reuseParent
          rw [if_pos (by omega)]
        · unfold reuseParent
          rw [if_neg (by omega), ← hkeq, hfa]
          rfl
      rw [hparent]
    · -- k < L: the next prefix still resolves; reuse its first match
      have hres : findAllPos ctx (segs.take (k + 1)) ≠ [] := by
        have hL0 : longestResolvable ctx segs ≠ 0 := by omega
        exact resolvable_of_le ctx segs (longestResolvable ctx segs) (k + 1)
          (by omega) (by omega) hL_le (longestResolvable_resolves ctx segs hL0)
      obtain ⟨p, tll, hfa⟩ : ∃ p tll, findAllPos ctx (segs.take (k + 1)) = p :: tll := by
        cases hfa : findAllPos ctx (segs.take (k + 1)) with
        | nil => exact absurd hfa hres
        | cons a l => exact ⟨a, l, rfl⟩
      have hfa' : findAllPos ctx (segs.take k ++ [segs[k]]) = p :: tll := by
        rw [take_succ_getElem segs k hklt]
        exact hfa
      simp only [ensureLoop, hfa']
      have hdone : segs.take k ++ [segs[k]] = segs.take (k + 1) :=
        take_succ_getElem segs k hklt
      rw [hdone]
      exact ih ctx segs (k + 1) p (by omega) (by omega) hfull hne
        (Or.inr ⟨by omega, tll, hfa⟩)

theorem longestResolvable_lt_of_nomatch (ctx : Elem) (segs : List String)
    (hfull : findAllPos ctx segs = []) (hne : segs ≠ []) :
    longestResolvable ctx segs < segs.length := by
  rcases Nat.eq_or_lt_of_le (longestResolvable_le ctx segs) with heq | hlt
  · have hL0 : longestResolvable ctx segs ≠ 0 := by
      intro h0
      rw [h0] at heq
      exact hne (List.eq_nil_of_length_eq_zero heq.symm)
    have := longestResolvable_resolves ctx segs hL0
    rw [heq, List.take_of_length_le (Nat.le_refl _)] at this
    exact absurd hfull this
  · exact hlt

theorem reuseParent_valid (ctx : Elem) (segs : List String) :
    (ctx.get? (reuseParent ctx segs)).isSome := by
  unfold reuseParent
  by_cases hL0 : longestResolvable ctx segs = 0
  · rw [if_pos hL0]; rfl
  · rw [if_neg hL0]
    have := longestResolvable_resolves ctx segs hL0
    cases hfa : findAllPos ctx (segs.take (longestResolvable ctx segs)) with
    | nil => exact absurd hfa this
    | cons p tl =>
      obtain ⟨_, ts, hts, _⟩ := head_findAllPos ctx _ p tl hfa
      simp only [List.headD_cons]
      rw [← tagsAlong_isSome, hts]
      rfl

theorem reuseParent_suffix (ctx : Elem) (segs : List String)
    (hL0 : longestResolvable ctx segs ≠ 0) :
    ∃ TP, tagsAlong ctx (reuseParent ctx segs) = some TP ∧
      segs.take (longestResolvable ctx segs) <:+ TP := by
  unfold reuseParent
  rw [if_neg hL0]
  have := longestResolvable_resolves ctx segs hL0
  cases hfa : findAllPos ctx (segs.take (longestResolvable ctx segs)) with
  | nil => exact absurd hfa this
  | cons p tl =>
    obtain ⟨_, ts, hts, hsuf⟩ := head_findAllPos ctx _ p tl hfa
    exact ⟨ts, by simpa using hts, hsuf⟩

theorem ensureNodeRel_of_match (ctx : Elem) (segs : List String) (p : Pos)
    (tl : List Pos) (h : findAllPos ctx segs = p :: tl) :
    ensureNodeRel ctx segs = (ctx, p) := by
  unfold ensureNodeRel
  rw [h]

theorem ensureNodeRel_of_nomatch (ctx : Elem) (segs : List String)
    (hfull : findAllPos ctx segs = []) (hne : segs ≠ []) :
    ensureNodeRel ctx segs =
      (appendChainAt ctx (reuseParent ctx segs)
        (segs.drop (longestResolvable ctx segs)),
       chainTerminal ctx (reuseParent ctx segs)
        (segs.drop (longestResolvable ctx segs))) := by
  unfold ensureNodeRel
  rw [hfull]
  have := ensureLoop_phase1 segs.length ctx segs 0 [] (by omega) (Nat.zero_le _)
    hfull hne (Or.inl ⟨rfl, rfl⟩)
  simpa using this

theorem chainPs_closed :
    ∀ (ts : List String) (e : Elem) (p : Pos), (e.get? p).isSome →
      ∀ q ∈ chainPs e p ts, ∃ j, j < ts.length ∧
        q = p ++ childCountAt e p :: List.replicate j 0 := by
  intro ts
  induction ts with
  | nil => intro e p _ q hq; simp [chainPs] at hq
  | cons t ts' ih =>
    intro e p hp q hq
    obtain ⟨s, hs⟩ := isSome_exists_get? e p hp
    simp only [chainPs, List.mem_cons] at hq
    rcases hq with rfl | hq
    · exact ⟨0, by simp, by simp⟩
    · have hp' : ((appendChildAt e p (Elem.mk t none [])).get?
          (p ++ [childCountAt e p])).isSome :=
        get?_isSome_appendChild_next e p t hp
      obtain ⟨j', hj', hq'⟩ := ih _ _ hp' q hq
      have hcc0 : childCountAt (appendChildAt e p (Elem.mk t none []))
          (p ++ [childCountAt e p]) = 0 := by
        rw [childCountAt_eq e s p hs, childCountAt_eq _ (Elem.mk t none []) _
          (get?_appendChild_new p e s _ hs)]
        rfl
      refine ⟨j' + 1, by simpa using Nat.succ_lt_succ hj', ?_⟩
      rw [hq', hcc0]
      simp [List.replicate_succ]

theorem chainTerminal_closed :
    ∀ (ts : List String) (e : Elem) (p : Pos), ts ≠ [] → (e.get? p).isSome →
      chainTerminal e p ts =
        p ++ childCountAt e p :: List.replicate (ts.length - 1) 0 := by
  intro ts
  induction ts with
  | nil => intro e p h _; exact absurd rfl h
  | cons t ts' ih =>
    intro e p _ hp
    obtain ⟨s, hs⟩ := isSome_exists_get? e p hp
    have hp' : ((appendChildAt e p (Elem.mk t none [])).get?
        (p ++ [childCountAt e p])).isSome :=
      get?_isSome_appendChild_next e p t hp
    have hcc0 : childCountAt (appendChildAt e p (Elem.mk t none []))
        (p ++ [childCountAt e p]) = 0 := by
      rw [childCountAt_eq e s p hs, childCountAt_eq _ (Elem.mk t none []) _
        (get?_appendChild_new p e s _ hs)]
      rfl
    cases ts' with
    | nil =>
      simp only [chainTerminal]
      simp
    | cons u us =>
      have hstep : chainTerminal e p (t :: u :: us) =
          chainTerminal (appendChildAt e p (Elem.mk t none []))
            (p ++ [childCountAt e p]) (u :: us) := rfl
      rw [hstep, ih _ _ (by simp) hp', hcc0]
      simp [List.replicate_succ]

theorem nodup_mem_singleton {α : Type} (l : List α) (a : α) (hnd : l.Nodup)
    (hmem : a ∈ l) (hall : ∀ x ∈ l, x = a) : l = [a] := by
  cases l with
  | nil => simp at hmem
  | cons b t =>
    have hba : b = a := hall b (by simp)
    subst hba
    cases t with
    | nil => rfl
    | cons c u =>
      have hcb : c = b := hall c (by simp)
      rw [List.nodup_cons] at hnd
      exact absurd (by simp [hcb]) hnd.1

theorem findAllPos_ensure_create (ctx : Elem) (segs : List String)
    (hfull : findAllPos ctx segs = []) (hne : segs ≠ []) :
    findAllPos
      (appendChainAt ctx (reuseParent ctx segs)
        (segs.drop (longestResolvable ctx segs))) segs =
      [chainTerminal ctx (reuseParent ctx segs)
        (segs.drop (longestResolvable ctx segs))] := by
  have hLlt := longestResolvable_lt_of_nomatch ctx segs hfull hne
  have hL_le := longestResolvable_le ctx segs
  have hD : segs.drop (longestResolvable ctx segs) ≠ [] := by
    intro h
    have := congrArg List.length h
    simp only [List.length_drop, List.length_nil] at this
    omega
  have hP := reuseParent_valid ctx segs
  obtain ⟨TP, hTP⟩ : ∃ TP, tagsAlong ctx (reuseParent ctx segs) = some TP :=
    Option.isSome_iff_exists.1 ((tagsAlong_isSome _ ctx).2 hP)
  have hTPlen : TP.length = (reuseParent ctx segs).length :=
    tagsAlong_length _ ctx TP hTP
  have hTPsuf : segs.take (longestResolvable ctx segs) <:+ TP := by
    by_cases hL0 : longestResolvable ctx segs = 0
    · rw [hL0]
      simp
    · obtain ⟨TP', hTP', hsuf⟩ := reuseParent_suffix ctx segs hL0
      rw [hTP] at hTP'
      exact (Option.some.inj hTP') ▸ hsuf
  have hsegs_eq : segs.take (longestResolvable ctx segs) ++
      segs.drop (longestResolvable ctx segs) = segs :=
    List.take_append_drop _ segs
  have hterm_tags : tagsAlong
      (appendChainAt ctx (reuseParent ctx segs) (segs.drop (longestResolvable ctx segs)))
      (chainTerminal ctx (reuseParent ctx segs) (segs.drop (longestResolvable ctx segs))) =
      some (TP ++ segs.drop (longestResolvable ctx segs)) :=
    tagsAlong_appendChain_terminal _ ctx _ TP hP hTP hD
  have hterm_ne : chainTerminal ctx (reuseParent ctx segs)
      (segs.drop (longestResolvable ctx segs)) ≠ [] := by
    rw [chainTerminal_closed _ ctx _ hD hP]
    simp
  have hterm_match : MatchChain
      (appendChainAt ctx (reuseParent ctx segs) (segs.drop (longestResolvable ctx segs)))
      segs
      (chainTerminal ctx (reuseParent ctx segs) (segs.drop (longestResolvable ctx segs))) := by
    refine ⟨hterm_ne, _, hterm_tags, ?_⟩
    obtain ⟨U, hU⟩ := hTPsuf
    refine ⟨U, ?_⟩
    rw [← hU, List.append_assoc, hsegs_eq]
  apply nodup_mem_singleton
  · exact (subtreePos_nodup _).filter _
  · exact (mem_findAllPos _ segs _).2 hterm_match
  · intro p hp
    obtain ⟨hne_p, ts, hts, hsuf⟩ := (mem_findAllPos _ segs p).1 hp
    have hvalid : ((appendChainAt ctx (reuseParent ctx segs)
        (segs.drop (longestResolvable ctx segs))).get? p).isSome := by
      rw [← tagsAlong_isSome, hts]; rfl
    rw [get?_isSome_appendChain _ ctx _ p hP] at hvalid
    rcases hvalid with hold | hnew
    · exfalso
      have htags_old := tagsAlong_appendChain_old
        (segs.drop (longestResolvable ctx segs)) ctx (reuseParent ctx segs) p hP hold
      rw [htags_old] at hts
      exact (findAllPos_eq_nil ctx segs).1 hfull p ⟨hne_p, ts, hts, hsuf⟩
    · obtain ⟨j, hj, htags⟩ :=
        tagsAlong_appendChain_chain _ ctx (reuseParent ctx segs) TP p hP hTP hnew
      rw [htags] at hts
      obtain rfl : TP ++ (segs.drop (longestResolvable ctx segs)).take (j + 1) = ts :=
        Option.some.inj hts
      have hDlen : (segs.drop (longestResolvable ctx segs)).length =
          segs.length - longestResolvable ctx segs := List.length_drop _ _
      rcases Nat.eq_or_lt_of_le (Nat.succ_le_of_lt hj) with hlast | hmid
      · -- the terminal chain node: identify it by its length and closed form
        have hplen := tagsAlong_length p _ _ htags
        rw [List.length_append] at hplen
        have htklen : ((segs.drop (longestResolvable ctx segs)).take (j + 1)).length =
            j + 1 := by
          rw [List.length_take]
          omega
        rw [htklen] at hplen
        obtain ⟨j₂, hj₂, hform⟩ := chainPs_closed _ ctx (reuseParent ctx segs) hP p hnew
        have hplen2 : p.length = (reuseParent ctx segs).length + 1 + j₂ := by
          rw [hform]
          simp only [List.length_append, List.length_cons, List.length_replicate]
          omega
        have hj₂_eq : j₂ = (segs.drop (longestResolvable ctx segs)).length - 1 := by
          omega
        rw [hform, hj₂_eq, chainTerminal_closed _ ctx _ hD hP]
      · -- an intermediate chain node would force a longer resolvable prefix
        exfalso
        have htklen : ((segs.drop (longestResolvable ctx segs)).take (j + 1)).length = j + 1 := by
          rw [List.length_take]
          omega
        have hslen : segs.length =
            longestResolvable ctx segs + (segs.drop (longestResolvable ctx segs)).length := by
          omega
        obtain ⟨hpref, _⟩ := suffix_split segs TP _ hsuf (by rw [htklen]; omega)
        rw [htklen] at hpref
        have hm_ge : longestResolvable ctx segs + 1 ≤ segs.length - (j + 1) := by omega
        have hdecomp : segs.take (segs.length - (j + 1)) =
            segs.take (longestResolvable ctx segs + 1) ++
              (segs.drop (longestResolvable ctx segs + 1)).take
                (segs.length - (j + 1) - (longestResolvable ctx segs + 1)) := by
          rw [← List.take_add]
          congr 1
          omega
        rw [hdecomp] at hpref
        have hmatch := suffix_take_of_append_suffix _ _ TP hpref
        have htake := tagsAlong_take (reuseParent ctx segs) ctx TP
          (TP.length -
            ((segs.drop (longestResolvable ctx segs + 1)).take
              (segs.length - (j + 1) - (longestResolvable ctx segs + 1))).length) hTP
        have hpref_len := hpref.length_le
        have htk1_len : (segs.take (longestResolvable ctx segs + 1)).length =
            longestResolvable ctx segs + 1 := by
          rw [List.length_take]
          omega
        rw [List.length_append, htk1_len] at hpref_len
        have hmm : MatchChain ctx (segs.take (longestResolvable ctx segs + 1))
            ((reuseParent ctx segs).take (TP.length -
              ((segs.drop (longestResolvable ctx segs + 1)).take
                (segs.length - (j + 1) - (longestResolvable ctx segs + 1))).length)) := by
          refine ⟨?_, _, htake, hmatch⟩
          rw [Ne, List.take_eq_nil_iff]
          push_neg
          constructor
          · omega
          · intro hPnil
            rw [hPnil] at hTPlen
            simp only [List.length_nil] at hTPlen
            omega
        have hres : findAllPos ctx (segs.take (longestResolvable ctx segs + 1)) ≠ [] := by
          intro hnil
          exact (findAllPos_eq_nil ctx _).1 hnil _ hmm
        have := longestResolvable_max ctx segs (longestResolvable ctx segs + 1)
          (by omega) (by omega) hres
        omega

/-! ## Lemmas: setting text preserves structure -/

theorem subtreePosList_set :
    ∀ (cs : List Elem) (k i : Nat) (c c' : Elem),
      cs[i]? = some c → subtreePos c' = subtreePos c →
      subtreePosList k (cs.set i c') = subtreePosList k cs := by
  intro cs
  induction cs with
  | nil => intro k i c c' hc _; simp at hc
  | cons d ds ih =>
    intro k i c c' hc hsp
    cases i with
    | zero =>
      simp only [List.getElem?_cons_zero, Option.some.injEq] at hc
      subst hc
      simp only [List.set_cons_zero, subtreePosList, hsp]
    | succ j =>
      simp only [List.getElem?_cons_succ] at hc
      simp only [List.set_cons_succ, subtreePosList]
      rw [ih (k + 1) j c c' hc hsp]

theorem subtreePos_setTextAt :
    ∀ (p : Pos) (e : Elem) (v : String),
      subtreePos (setTextAt e p v) = subtreePos e := by
  intro p
  induction p with
  | nil =>
    intro e v
    cases e with
    | mk t x cs => rfl
  | cons i q ih =>
    intro e v
    cases e with
    | mk t x cs =>
      simp only [setTextAt, modifyAt]
      cases hc : cs[i]? with
      | none => rfl
      | some c =>
        simp only [subtreePos]
        rw [show (modifyAt c q fun s => Elem.mk s.tag (some v) s.children) =
              setTextAt c q v from rfl]
        rw [subtreePosList_set cs 0 i c (setTextAt c q v) hc (ih c v)]

theorem tag_setTextAt (e : Elem) (p : Pos) (v : String) :
    (setTextAt e p v).tag = e.tag := by
  cases p with
  | nil => cases e <;> rfl
  | cons i q =>
    cases e with
    | mk t x cs =>
      simp only [setTextAt, modifyAt]
      cases cs[i]? <;> rfl

theorem tagsAlong_setTextAt :
    ∀ (q p : Pos) (e : Elem) (v : String),
      tagsAlong (setTextAt e p v) q = tagsAlong e q := by
  intro q
  induction q with
  | nil => intro p e v; rw [tagsAlong_nil, tagsAlong_nil]
  | cons j q' ih =>
    intro p e v
    cases p with
    | nil =>
      cases e with
      | mk t x cs => rfl
    | cons i p' =>
      cases e with
      | mk t x cs =>
        cases hc : cs[i]? with
        | none => simp only [setTextAt, modifyAt, hc]
        | some c =>
          have hlt : i < cs.length := (List.getElem?_eq_some.1 hc).1
          by_cases hij : i = j
          · subst hij
            simp only [setTextAt, modifyAt, hc, tagsAlong, List.getElem?_set_self hlt]
            rw [show modifyAt c p' (fun s => Elem.mk s.tag (some v) s.children) =
                  setTextAt c p' v from rfl]
            rw [ih p' c v, tag_setTextAt c p' v]
          · simp only [setTextAt, modifyAt, hc, tagsAlong, List.getElem?_set_ne hij]

theorem findAllPos_setTextAt (e : Elem) (p : Pos) (v : String) (segs : List String) :
    findAllPos (setTextAt e p v) segs = findAllPos e segs := by
  unfold findAllPos
  rw [subtreePos_setTextAt]
  apply List.filter_congr
  intro q _
  unfold matchChainB
  rw [tagsAlong_setTextAt]

/-! ## Lemmas: Python strip -/

theorem pstrip_data (s : String) :
    (pstrip s).data =
      (s.data.dropWhile Char.isWhitespace).rdropWhile Char.isWhitespace := rfl

theorem dropWhile_rdropWhile_fixed (p : Char → Bool) (X : List Char)
    (hX : X.dropWhile p = X) :
    (X.rdropWhile p).dropWhile p = X.rdropWhile p := by
  obtain ⟨t, ht⟩ := List.rdropWhile_prefix (l := X) (p := p)
  cases hRl : X.rdropWhile p with
  | nil => rfl
  | cons a as =>
    rw [List.dropWhile_cons]
    rw [hRl] at ht
    have hXeq : X = a :: (as ++ t) := by
      rw [← ht]
      simp
    have hpa : p a = false := by
      have hh := List.head?_dropWhile_not p X
      rw [hX, hXeq] at hh
      simpa using hh
    simp [hpa]

theorem pstrip_pstrip (s : String) : pstrip (pstrip s) = pstrip s := by
  unfold pstrip
  apply congrArg String.mk
  show ((((s.data.dropWhile Char.isWhitespace).rdropWhile
      Char.isWhitespace).dropWhile Char.isWhitespace).rdropWhile Char.isWhitespace) = _
  rw [dropWhile_rdropWhile_fixed Char.isWhitespace
    (s.data.dropWhile Char.isWhitespace) (List.dropWhile_idempotent _ _),
    List.rdropWhile_idempotent]

theorem pstrip_empty : pstrip "" = "" := rfl

theorem getTextRel_pstrip_fixed (ctx : Elem) (segs : List String) :
    pstrip (getTextRel ctx segs) = getTextRel ctx segs := by
  cases hfo : findOneRel ctx segs with
  | none =>
    simp only [getTextRel, hfo]
    exact pstrip_empty
  | some p =>
    cases hg : (ctx.get? p).bind Elem.text with
    | none =>
      simp only [getTextRel, hfo, hg]
      exact pstrip_empty
    | some s =>
      simp only [getTextRel, hfo, hg]
      exact pstrip_pstrip s

/-! ## The text write/read round trip -/

theorem getTextRel_setTextRel (ctx : Elem) (segs : List String) (v : String)
    (hne : segs ≠ []) :
    getTextRel (setTextRel ctx segs v) segs = pstrip v := by
  unfold setTextRel
  cases hfa : findAllPos ctx segs with
  | cons p tl =>
    have hvalid : (ctx.get? p).isSome := by
      obtain ⟨_, ts, hts, _⟩ := head_findAllPos ctx segs p tl hfa
      rw [← tagsAlong_isSome, hts]
      rfl
    obtain ⟨s, hs⟩ := isSome_exists_get? ctx p hvalid
    have hfa2 : findAllPos (setTextAt ctx p v) segs = p :: tl := by
      rw [findAllPos_setTextAt, hfa]
    have hget : (setTextAt ctx p v).get? p =
        some (Elem.mk s.tag (some v) s.children) :=
      get?_modifyAt_self ctx s _ p hs
    simp only [getTextRel, findOneRel, hfa2, List.head?_cons, hget]
    rfl
  | nil =>
    have hrw := ensureNodeRel_of_nomatch ctx segs hfa hne
    rw [hrw]
    have hLlt := longestResolvable_lt_of_nomatch ctx segs hfa hne
    have hD : segs.drop (longestResolvable ctx segs) ≠ [] := by
      intro h
      have := congrArg List.length h
      simp only [List.length_drop, List.length_nil] at this
      omega
    have hP := reuseParent_valid ctx segs
    obtain ⟨tg, hterm⟩ := get?_appendChain_terminal
      (segs.drop (longestResolvable ctx segs)) ctx (reuseParent ctx segs) hD hP
    have hfa3 := findAllPos_ensure_create ctx segs hfa hne
    have hfa4 : findAllPos
        (setTextAt (appendChainAt ctx (reuseParent ctx segs)
          (segs.drop (longestResolvable ctx segs)))
          (chainTerminal ctx (reuseParent ctx segs)
            (segs.drop (longestResolvable ctx segs))) v) segs =
        [chainTerminal ctx (reuseParent ctx segs)
          (segs.drop (longestResolvable ctx segs))] := by
      rw [findAllPos_setTextAt, hfa3]
    have hget2 : (setTextAt (appendChainAt ctx (reuseParent ctx segs)
        (segs.drop (longestResolvable ctx segs)))
        (chainTerminal ctx (reuseParent ctx segs)
          (segs.drop (longestResolvable ctx segs))) v).get?
        (chainTerminal ctx (reuseParent ctx segs)
          (segs.drop (longestResolvable ctx segs))) =
        some (Elem.mk tg (some v) []) :=
      get?_modifyAt_self
        (appendChainAt ctx (reuseParent ctx segs)
          (segs.drop (longestResolvable ctx segs)))
        (Elem.mk tg none [])
        (fun s => Elem.mk s.tag (some v) s.children)
        (chainTerminal ctx (reuseParent ctx segs)
          (segs.drop (longestResolvable ctx segs))) hterm
    simp only [getTextRel, findOneRel, hfa4, List.head?_cons, hget2]
    rfl

/-! ## Small access lemmas for the claim statements -/

theorem get?_append :
    ∀ (p : Pos) (e s : Elem) (q : Pos),
      e.get? p = some s → e.get? (p ++ q) = s.get? q := by
  intro p
  induction p with
  | nil =>
    intro e s q hg
    obtain rfl : e = s := by simpa [Elem.get?] using hg
    rfl
  | cons i p' ih =>
    intro e s q hg
    cases e with
    | mk t x cs =>
      cases hc : cs[i]? with
      | none =>
        simp only [Elem.get?, hc] at hg
        cases hg
      | some c =>
        simp only [Elem.get?, hc, List.cons_append] at hg ⊢
        exact ih c s q hg

theorem get?_child (e s c : Elem) (p : Pos) (i : Nat)
    (hg : e.get? p = some s) (hc : s.children[i]? = some c) :
    e.get? (p ++ [i]) = some c := by
  rw [get?_append p e s [i] hg]
  cases s with
  | mk t x cs =>
    simp only [Elem.children] at hc
    simp only [Elem.get?, hc]

/-- C1: contract discovery returns exactly the elements (identified by
their positions, i.e. by node identity) that are parents of a
`ReferenceInformation` marker having both an `OrderId/IdValue` and an
`AssignmentId/IdValue` chain below it; each such element appears at most
once; the result is in first-seen document (preorder) order; and a
document with no marker yields the empty list rather than an error. -/
theorem C1_discovery (root : Elem) :
    (∀ p : Pos, p ∈ findContractContexts root ↔
      ∃ e, root.get? p = some e ∧ hasMarkerChild e = true) ∧
    (findContractContexts root).Nodup ∧
    (findContractContexts root).Sublist (subtreePos root) ∧
    ((∀ (p : Pos) (e : Elem), root.get? p = some e → isMarker e = false) →
      findContractContexts root = []) := by
  have hmem : ∀ p : Pos, p ∈ findContractContexts root ↔
      ∃ e, root.get? p = some e ∧ hasMarkerChild e = true := by
    intro p
    unfold findContractContexts
    rw [List.mem_filter, mem_subtreePos]
    constructor
    · rintro ⟨hv, hpred⟩
      cases hg : root.get? p with
      | none => rw [hg] at hv; simp at hv
      | some e =>
        rw [hg] at hpred
        exact ⟨e, rfl, hpred⟩
    · rintro ⟨e, hg, hmk⟩
      rw [hg]
      exact ⟨rfl, hmk⟩
  refine ⟨hmem, (subtreePos_nodup root).filter _, List.filter_sublist _, ?_⟩
  intro hnone
  rw [List.eq_nil_iff_forall_not_mem]
  intro p hp
  obtain ⟨e, hg, hmk⟩ := (hmem p).1 hp
  unfold hasMarkerChild at hmk
  obtain ⟨c, hcmem, hcmk⟩ := List.any_eq_true.1 hmk
  obtain ⟨i, hi⟩ := List.getElem?_of_mem hcmem
  have := get?_child root e c p i hg hi
  rw [hnone (p ++ [i]) c this] at hcmk
  cases hcmk

/-- C1 witness: on the two-contract document the discovery result is
nonempty and satisfies the characterization at a concrete position. -/
theorem C1_discovery_witness :
    ([0] : Pos) ∈ findContractContexts exDoc2 ↔
      ∃ e, exDoc2.get? [0] = some e ∧ hasMarkerChild e = true :=
  (C1_discovery exDoc2).1 [0]

/-- C2: applying the mapping engine to context A (a discovered context
position) never changes any node lying under context B when neither
context is a descendant of the other — every context-relative lookup
and write of the engine resolves within the context subtree it is given,
so the whole subtree under B is untouched. -/
theorem C2_isolation (root : Elem) (pA pB : Pos) (cmd : Cmd) (cfg : Config)
    (hA : pA ∈ findContractContexts root) (hB : pB ∈ findContractContexts root)
    (h1 : ¬ pA <+: pB) (h2 : ¬ pB <+: pA) :
    ∀ q : Pos,
      (modifyAt root pA (fun s => (applyCommandMappingsCtx s cmd cfg).2)).get?
        (pB ++ q) = root.get? (pB ++ q) := by
  intro q
  apply get?_modifyAt_disjoint
  · intro hpre
    rcases List.prefix_or_prefix_of_prefix hpre (List.prefix_append pB q) with h | h
    · exact h1 h
    · exact h2 h
  · intro hpre
    exact h2 ((List.prefix_append pB q).trans hpre)

/-- C9: `extract_order_id` returns the empty string, not an error, when
no contract context exists; otherwise it returns the trimmed text of the
first `ReferenceInformation/OrderId/IdValue` chain below the first
discovered context (empty when that chain has no match or no text). -/
theorem C9_extract_order_id (root : Elem) :
    (findContractContexts root = [] → extractOrderId root = "") ∧
    (∀ p rest, findContractContexts root = p :: rest →
      extractOrderId root = getTextRel (subAt root p) refOrderSegs ∧
      (findAllPos (subAt root p) refOrderSegs = [] → extractOrderId root = "") ∧
      (∀ q qs, findAllPos (subAt root p) refOrderSegs = q :: qs →
        extractOrderId root =
          (match ((subAt root p).get? q).bind Elem.text with
           | some s => pstrip s
           | none => ""))) := by
  constructor
  · intro h
    unfold extractOrderId
    rw [h]
  · intro p rest h
    have h1 : extractOrderId root = getTextRel (subAt root p) refOrderSegs := by
      unfold extractOrderId
      rw [h]
      rfl
    refine ⟨h1, ?_, ?_⟩
    · intro hfa
      rw [h1]
      unfold getTextRel findOneRel
      rw [hfa]
      rfl
    · intro q qs hfa
      rw [h1]
      unfold getTextRel findOneRel
      rw [hfa]
      rfl

/-- C9 witness: concrete two-contract document. -/
theorem C9_extract_order_id_witness :
    extractOrderId exDoc2 = getTextRel (subAt exDoc2 [0]) refOrderSegs ∧
    extractOrderId exDoc2 = "CMD1" :=
  ⟨((C9_extract_order_id exDoc2).2 [0] [[1]] (by rfl)).1, by rfl⟩

/-- C2 witness: two sibling contexts with identical tag structure and
distinct identifiers; mapping context `[0]` leaves the node at `[0]`
under context `[1]` (its marker element) untouched. -/
theorem C2_isolation_witness :
    (modifyAt exDoc2 [0]
      (fun s => (applyCommandMappingsCtx s [("code_site", "NEW")] exCfgSite).2)).get?
      ([1] ++ [0]) = exDoc2.get? ([1] ++ [0]) :=
  C2_isolation exDoc2 [0] [1] [("code_site", "NEW")] exCfgSite
    (by decide) (by decide) (by decide) (by decide) [0]

/-- C7: classification normalization (with the default classification
regex) is idempotent: the second run returns the same tree value, the
same coefficient value, and reports no change. -/
theorem C7_normalize_idempotent (ctx : Elem) :
    (normalizeClassificationCtx
        (normalizeClassificationCtx ctx defaultClassMatch).2.2
        defaultClassMatch).2.2 =
      (normalizeClassificationCtx ctx defaultClassMatch).2.2 ∧
    (normalizeClassificationCtx
        (normalizeClassificationCtx ctx defaultClassMatch).2.2
        defaultClassMatch).2.1 =
      (normalizeClassificationCtx ctx defaultClassMatch).2.1 ∧
    (normalizeClassificationCtx
        (normalizeClassificationCtx ctx defaultClassMatch).2.2
        defaultClassMatch).1 = false := by
  have hne : coeffSegs ≠ [] := by simp [coeffSegs]
  by_cases hcond : getTextRel ctx coeffSegs = "" ∧
      defaultClassMatch (getTextRel ctx levelSegs) = true
  · have hwrite : getTextRel
        (setTextRel ctx coeffSegs (getTextRel ctx levelSegs)) coeffSegs =
        getTextRel ctx levelSegs := by
      rw [getTextRel_setTextRel ctx coeffSegs _ hne, getTextRel_pstrip_fixed]
    have hlevelne : getTextRel ctx levelSegs ≠ "" := by
      intro h0
      rw [h0] at hcond
      exact absurd hcond.2 (by decide)
    have hinner : normalizeClassificationCtx ctx defaultClassMatch =
        (true, getTextRel ctx levelSegs,
          setTextRel ctx coeffSegs (getTextRel ctx levelSegs)) := by
      unfold normalizeClassificationCtx
      rw [if_pos hcond]
    have houter : normalizeClassificationCtx
        (setTextRel ctx coeffSegs (getTextRel ctx levelSegs)) defaultClassMatch =
        (false, getTextRel ctx levelSegs,
          setTextRel ctx coeffSegs (getTextRel ctx levelSegs)) := by
      unfold normalizeClassificationCtx
      rw [if_neg (fun hc => hlevelne (hwrite.symm.trans hc.1)), hwrite]
    rw [hinner]
    simp only [houter]
    exact ⟨trivial, trivial, trivial⟩
  · have hinner : normalizeClassificationCtx ctx defaultClassMatch =
        (false, getTextRel ctx coeffSegs, ctx) := by
      unfold normalizeClassificationCtx
      rw [if_neg hcond]
    rw [hinner]
    simp only [hinner]
    exact ⟨trivial, trivial, trivial⟩

/-- C4: `ensure_node_rel` returns the first existing full-chain match
with the tree unchanged when one exists; otherwise it reuses the longest
prefix of the chain that resolves below the context (re-resolved from
the context, first match winning) and creates exactly the missing suffix
as a fresh chain of childless elements, each appended as the last child
of its parent; afterwards the created terminal is the unique match of
the full chain, so no existing element is duplicated. -/
theorem C4_ensure_node (ctx : Elem) (segs : List String) (hne : segs ≠ []) :
    (∀ p tl, findAllPos ctx segs = p :: tl →
      ensureNodeRel ctx segs = (ctx, p)) ∧
    (findAllPos ctx segs = [] →
      ensureNodeRel ctx segs =
        (appendChainAt ctx (reuseParent ctx segs)
          (segs.drop (longestResolvable ctx segs)),
         chainTerminal ctx (reuseParent ctx segs)
          (segs.drop (longestResolvable ctx segs))) ∧
      findAllPos (appendChainAt ctx (reuseParent ctx segs)
        (segs.drop (longestResolvable ctx segs))) segs =
        [chainTerminal ctx (reuseParent ctx segs)
          (segs.drop (longestResolvable ctx segs))] ∧
      (∀ n, 1 ≤ n → n ≤ segs.length →
        (findAllPos ctx (segs.take n) ≠ [] ↔ n ≤ longestResolvable ctx segs))) := by
  constructor
  · intro p tl h
    exact ensureNodeRel_of_match ctx segs p tl h
  · intro hfull
    refine ⟨ensureNodeRel_of_nomatch ctx segs hfull hne,
      findAllPos_ensure_create ctx segs hfull hne, ?_⟩
    intro n h1 hn
    constructor
    · intro hres
      exact longestResolvable_max ctx segs n (by omega) hn hres
    · intro hnL
      exact resolvable_of_le ctx segs (longestResolvable ctx segs) n h1 hnL
        (longestResolvable_le ctx segs)
        (longestResolvable_resolves ctx segs (by omega))

/-- C4 witness: a present chain is returned unchanged on the concrete
site context. -/
theorem C4_ensure_node_witness :
    ensureNodeRel exCtxSite exSiteSegs = (exCtxSite, [1, 0]) :=
  (C4_ensure_node exCtxSite exSiteSegs (by simp [exSiteSegs])).1 [1, 0] [] (by rfl)

/-- C5: the `code_site` block writes the spec-mandated composition at
the mapped path: the configured `siret_prefix` when a rebuild is
requested and a prefix is supplied; else the current value's
before-first-hyphen part when the current value contains a hyphen; else
the bare trimmed value — and the whole engine runs this block last, on
the state produced by the first four blocks. -/
theorem C5_code_site (cmd : Cmd) (cfg : Config) (raw : String)
    (path : List String) (st : EngineSt)
    (h1 : cmd.lookup "code_site" = some raw)
    (h2 : cfg.mappings.lookup "code_site" = some path)
    (h3 : pstrip raw ≠ "") :
    applySite cmd cfg st =
      (st.1 ++ [("code_site", pstrip raw)],
       setTextRel st.2 path (siteWritten cfg (getTextRel st.2 path) (pstrip raw))) ∧
    ∀ ctx : Elem, applyCommandMappingsCtx ctx cmd cfg =
      applySite cmd cfg (applyFirstFour ctx cmd cfg) := by
  constructor
  · unfold applySite siteWritten
    rw [h1, h2]
    simp only [if_neg h3]
    by_cases hrb : cfg.rebuild ∧ cfg.siretPref ≠ ""
    · rw [if_pos hrb, if_pos hrb]
    · rw [if_neg hrb, if_neg hrb]
      by_cases hcur : getTextRel st.2 path = ""
      · have hh : hasHyphen (getTextRel st.2 path) = false := by
          rw [hcur]
          rfl
        rw [if_neg (show ¬ (getTextRel st.2 path ≠ "" ∧
            hasHyphen (getTextRel st.2 path) = true) from fun hc => hc.1 hcur)]
        rw [if_neg (show ¬ (hasHyphen (getTextRel st.2 path) = true) from by
          rw [hh]; simp)]
      · by_cases hh : hasHyphen (getTextRel st.2 path) = true
        · rw [if_pos (show getTextRel st.2 path ≠ "" ∧
              hasHyphen (getTextRel st.2 path) = true from ⟨hcur, hh⟩)]
          rw [if_pos hh]
        · rw [if_neg (show ¬ (getTextRel st.2 path ≠ "" ∧
              hasHyphen (getTextRel st.2 path) = true) from fun hc => hh hc.2)]
          rw [if_neg hh]
  · intro ctx
    rfl

/-- C5 witness: the spec's concrete example — current value `123-OLD`,
incoming `NEW`, no rebuild — writes `123-NEW`; the rebuilt variant with
prefix `999` writes `999-NEW`. -/
theorem C5_code_site_witness :
    applySite [("code_site", "NEW")] exCfgSite ([], exCtxSite) =
      ([("code_site", pstrip "NEW")],
       setTextRel exCtxSite exSiteSegs
         (siteWritten exCfgSite (getTextRel exCtxSite exSiteSegs) (pstrip "NEW"))) ∧
    getTextRel (applyCommandMappingsCtx exCtxSite
      [("code_site", "NEW")] exCfgSite).2 exSiteSegs = "123-NEW" ∧
    getTextRel (applyCommandMappingsCtx exCtxSite [("code_site", "NEW")]
      { exCfgSite with rebuild := true, siretPref := "999" }).2 exSiteSegs =
      "999-NEW" :=
  ⟨(C5_code_site [("code_site", "NEW")] exCfgSite "NEW" exSiteSegs
      ([], exCtxSite) (by rfl) (by rfl) (by decide)).1, by rfl, by rfl⟩

/-! ## Lemmas: the applied-fields lists of the mapping engine -/

theorem applyCls_fst (cmd : Cmd) (cfg : Config) (st : EngineSt) :
    (applyCls cmd cfg st).1 = st.1 ++ clsEntries cmd cfg := by
  unfold applyCls clsEntries
  cases h1 : cmd.lookup "classification_interimaire" with
  | none => cases cfg.mappings.lookup "classification_interimaire" <;> simp
  | some raw =>
    cases h2 : cfg.mappings.lookup "classification_interimaire" with
    | none => simp
    | some path =>
      by_cases hv : pstrip raw = "" <;> simp [hv]

theorem applyStatut_fst (cmd : Cmd) (cfg : Config) (st : EngineSt) :
    (applyStatut cmd cfg st).1 = st.1 ++ statutEntries cmd cfg := by
  unfold applyStatut statutEntries statutVal
  cases h1 : cmd.lookup "statut" with
  | none => cases cfg.mappings.lookup "statut" <;> simp
  | some raw =>
    cases h2 : cfg.mappings.lookup "statut" with
    | none => simp
    | some path =>
      by_cases hv : (if pstrip raw = "" then ""
          else ((cfg.statutMap.lookup (pstrip raw)).getD (pstrip raw))) = "" <;>
        simp [hv]

theorem applyPersonne_fst (cmd : Cmd) (cfg : Config) (st : EngineSt) :
    (applyPersonne cmd cfg st).1 = st.1 ++ personneEntries cmd cfg := by
  unfold applyPersonne personneEntries
  cases h1 : cmd.lookup "personne_absente" with
  | none => cases cfg.mappings.lookup "personne_absente" <;> simp
  | some raw =>
    cases h2 : cfg.mappings.lookup "personne_absente" with
    | none => simp
    | some path =>
      by_cases hv : pstrip raw = "" <;> simp [hv]

theorem applyMetier_fst (cmd : Cmd) (cfg : Config) (st : EngineSt) :
    (applyMetier cmd cfg st).1 = st.1 ++ metierEntries cmd cfg := by
  unfold applyMetier metierEntries
  cases h1 : cmd.lookup "code_metier" with
  | none => cases cfg.mappings.lookup "code_metier" <;> simp
  | some raw =>
    cases h2 : cfg.mappings.lookup "code_metier" with
    | none => simp
    | some path =>
      by_cases hv : pstrip raw = "" <;> simp [hv]

theorem applySite_fst (cmd : Cmd) (cfg : Config) (st : EngineSt) :
    (applySite cmd cfg st).1 = st.1 ++ siteEntries cmd cfg := by
  unfold applySite siteEntries
  cases h1 : cmd.lookup "code_site" with
  | none => cases cfg.mappings.lookup "code_site" <;> simp
  | some raw =>
    cases h2 : cfg.mappings.lookup "code_site" with
    | none => simp
    | some path =>
      by_cases hv : pstrip raw = "" <;> simp [hv]

theorem applyCommandMappingsCtx_fst (ctx : Elem) (cmd : Cmd) (cfg : Config) :
    (applyCommandMappingsCtx ctx cmd cfg).1 =
      clsEntries cmd cfg ++ statutEntries cmd cfg ++ personneEntries cmd cfg ++
        metierEntries cmd cfg ++ siteEntries cmd cfg := by
  unfold applyCommandMappingsCtx applyFirstFour
  rw [applySite_fst, applyMetier_fst, applyPersonne_fst, applyStatut_fst,
    applyCls_fst]
  simp [List.append_assoc]

theorem mem_simpleEntries (name : String) (cmd : Cmd) (cfg : Config)
    (f v : String)
    (entries : Cmd)
    (hdef : entries = (match cmd.lookup name, cfg.mappings.lookup name with
      | some raw, some _ => if pstrip raw = "" then [] else [(name, pstrip raw)]
      | _, _ => [])) :
    ((f, v) ∈ entries ↔
      (f = name ∧ ∃ raw, cmd.lookup name = some raw ∧
        (cfg.mappings.lookup name).isSome ∧ v = pstrip raw ∧ v ≠ "")) := by
  subst hdef
  cases h1 : cmd.lookup name with
  | none => simp
  | some raw =>
    cases h2 : cfg.mappings.lookup name with
    | none => simp
    | some path =>
      by_cases hv : pstrip raw = ""
      · simp only [if_pos hv, List.not_mem_nil, false_iff, not_and]
        rintro rfl ⟨raw', hraw', _, hveq, hvne⟩
        cases Option.some.inj hraw'
        exact hvne (hveq.trans hv)
      · simp only [if_neg hv, List.mem_singleton, Prod.mk.injEq, Option.isSome_some]
        constructor
        · rintro ⟨rfl, rfl⟩
          exact ⟨rfl, raw, rfl, trivial, rfl, hv⟩
        · rintro ⟨rfl, raw', hraw', _, hveq, _⟩
          cases Option.some.inj hraw'
          exact ⟨rfl, hveq⟩

theorem mem_statutEntries (cmd : Cmd) (cfg : Config) (f v : String) :
    ((f, v) ∈ statutEntries cmd cfg ↔
      (f = "statut" ∧ ∃ raw, cmd.lookup "statut" = some raw ∧
        (cfg.mappings.lookup "statut").isSome ∧ v = statutVal cfg raw ∧ v ≠ "")) := by
  unfold statutEntries
  cases h1 : cmd.lookup "statut" with
  | none => simp
  | some raw =>
    cases h2 : cfg.mappings.lookup "statut" with
    | none => simp
    | some path =>
      by_cases hv : statutVal cfg raw = ""
      · simp only [if_pos hv, List.not_mem_nil, false_iff, not_and]
        rintro rfl ⟨raw', hraw', _, hveq, hvne⟩
        cases Option.some.inj hraw'
        exact hvne (hveq.trans hv)
      · simp only [if_neg hv, List.mem_singleton, Prod.mk.injEq, Option.isSome_some]
        constructor
        · rintro ⟨rfl, rfl⟩
          exact ⟨rfl, raw, rfl, trivial, rfl, hv⟩
        · rintro ⟨rfl, raw', hraw', _, hveq, _⟩
          cases Option.some.inj hraw'
          exact ⟨rfl, hveq⟩

theorem mem_personneEntries (cmd : Cmd) (cfg : Config) (f v : String) :
    ((f, v) ∈ personneEntries cmd cfg ↔
      ((f = "personne_absente" ∧ ∃ raw, cmd.lookup "personne_absente" = some raw ∧
          (cfg.mappings.lookup "personne_absente").isSome ∧ v = pstrip raw ∧ v ≠ "") ∨
       (f = "recourse_type" ∧ v = "01" ∧
        ∃ raw, cmd.lookup "personne_absente" = some raw ∧
          (cfg.mappings.lookup "personne_absente").isSome ∧ pstrip raw ≠ ""))) := by
  unfold personneEntries
  cases h1 : cmd.lookup "personne_absente" with
  | none => simp
  | some raw =>
    cases h2 : cfg.mappings.lookup "personne_absente" with
    | none => simp
    | some path =>
      by_cases hv : pstrip raw = ""
      · simp only [if_pos hv, List.not_mem_nil, false_iff, not_or, not_and]
        constructor
        · rintro rfl ⟨raw', hraw', _, hveq, hvne⟩
          cases Option.some.inj hraw'
          exact hvne (hveq.trans hv)
        · rintro rfl _ ⟨raw', hraw', _, hvne⟩
          cases Option.some.inj hraw'
          exact hvne hv
      · simp only [if_neg hv, List.mem_cons, List.mem_singleton, Prod.mk.injEq,
          List.not_mem_nil, or_false, Option.isSome_some]
        constructor
        · rintro (⟨rfl, rfl⟩ | ⟨rfl, rfl⟩)
          · exact Or.inl ⟨rfl, raw, rfl, trivial, rfl, hv⟩
          · exact Or.inr ⟨rfl, rfl, raw, rfl, trivial, hv⟩
        · rintro (⟨rfl, raw', hraw', _, hveq, _⟩ | ⟨rfl, rfl, raw', hraw', _, _⟩)
          · cases Option.some.inj hraw'
            exact Or.inl ⟨rfl, hveq⟩
          · exact Or.inr ⟨rfl, rfl⟩

/-- C6 counterexample: for `code_site` the engine records the bare
trimmed incoming value (`"NEW"`), while the text actually written at
the mapped path is the composed `"123-NEW"` — so the recorded value is
not the value written to the document. -/
theorem C6_counterexample :
    (applyCommandMappingsCtx exCtxSite [("code_site", "NEW")] exCfgSite).1 =
      [("code_site", "NEW")] ∧
    getTextRel (applyCommandMappingsCtx exCtxSite
      [("code_site", "NEW")] exCfgSite).2 exSiteSegs = "123-NEW" ∧
    ("NEW" : String) ≠ "123-NEW" :=
  ⟨rfl, rfl, by decide⟩

/-- C6 (amended): the applied-fields result contains an entry exactly
for every field block that fired (plus the extra `recourse_type` entry
whenever `personne_absente` fired) and no entry for a skipped field;
each entry's value is the field's processed incoming value — the
trimmed value for `classification_interimaire`, `personne_absente` and
`code_metier`, the translated status for `statut`, the constant `"01"`
for `recourse_type`, and for `code_site` the bare trimmed incoming
value, which may differ from the composed text written at the mapped
path. -/
theorem C6_amended (ctx : Elem) (cmd : Cmd) (cfg : Config) :
    (applyCommandMappingsCtx ctx cmd cfg).1 =
      clsEntries cmd cfg ++ statutEntries cmd cfg ++ personneEntries cmd cfg ++
        metierEntries cmd cfg ++ siteEntries cmd cfg ∧
    ∀ f v : String, (f, v) ∈ (applyCommandMappingsCtx ctx cmd cfg).1 ↔
      ((f = "classification_interimaire" ∧
        ∃ raw, cmd.lookup "classification_interimaire" = some raw ∧
          (cfg.mappings.lookup "classification_interimaire").isSome ∧
          v = pstrip raw ∧ v ≠ "") ∨
       (f = "statut" ∧ ∃ raw, cmd.lookup "statut" = some raw ∧
          (cfg.mappings.lookup "statut").isSome ∧ v = statutVal cfg raw ∧ v ≠ "") ∨
       (f = "personne_absente" ∧ ∃ raw, cmd.lookup "personne_absente" = some raw ∧
          (cfg.mappings.lookup "personne_absente").isSome ∧ v = pstrip raw ∧ v ≠ "") ∨
       (f = "recourse_type" ∧ v = "01" ∧
        ∃ raw, cmd.lookup "personne_absente" = some raw ∧
          (cfg.mappings.lookup "personne_absente").isSome ∧ pstrip raw ≠ "") ∨
       (f = "code_metier" ∧ ∃ raw, cmd.lookup "code_metier" = some raw ∧
          (cfg.mappings.lookup "code_metier").isSome ∧ v = pstrip raw ∧ v ≠ "") ∨
       (f = "code_site" ∧ ∃ raw, cmd.lookup "code_site" = some raw ∧
          (cfg.mappings.lookup "code_site").isSome ∧ v = pstrip raw ∧ v ≠ "")) := by
  refine ⟨applyCommandMappingsCtx_fst ctx cmd cfg, ?_⟩
  intro f v
  rw [applyCommandMappingsCtx_fst ctx cmd cfg]
  simp only [List.mem_append]
  rw [mem_simpleEntries "classification_interimaire" cmd cfg f v
      (clsEntries cmd cfg) rfl,
    mem_statutEntries cmd cfg f v,
    mem_personneEntries cmd cfg f v,
    mem_simpleEntries "code_metier" cmd cfg f v (metierEntries cmd cfg) rfl,
    mem_simpleEntries "code_site" cmd cfg f v (siteEntries cmd cfg) rfl]
  simp only [or_assoc]

/-- C6 amended witness: the concrete site example yields exactly the
`code_site` entry with the bare value. -/
theorem C6_amended_witness :
    ("code_site", "NEW") ∈
      (applyCommandMappingsCtx exCtxSite [("code_site", "NEW")] exCfgSite).1 :=
  ((C6_amended exCtxSite [("code_site", "NEW")] exCfgSite).2 "code_site" "NEW").2
    (Or.inr (Or.inr (Or.inr (Or.inr (Or.inr
      ⟨rfl, "NEW", rfl, by decide, rfl, by decide⟩)))))

/-! ## Lemmas: the orchestrator loop -/

theorem processAllGo_length (records : Records) (cfg : Config) :
    ∀ (ps : List Pos) (tree : Elem),
      ((processAllGo tree ps records cfg).2).length = ps.length := by
  intro ps
  induction ps with
  | nil => intro tree; rfl
  | cons p rest ih =>
    intro tree
    simp only [processAllGo]
    rw [List.length_cons, ih]
    simp

theorem processOneCtx_eq (tree : Elem) (p : Pos) (records : Records)
    (cfg : Config) :
    processOneCtx tree p records cfg =
      (match (if extractOrderIdCtx (subAt (normStep tree p cfg) p) = "" then none
        else records.lookup (extractOrderIdCtx (subAt (normStep tree p cfg) p))) with
      | some row =>
        if row.isEmpty then
          (normStep tree p cfg, mkSummary (subAt (normStep tree p cfg) p) false)
        else
          (modifyAt (normStep tree p cfg) p
            (fun s => (applyCommandMappingsCtx s row cfg).2),
           mkSummary (subAt (modifyAt (normStep tree p cfg) p
             (fun s => (applyCommandMappingsCtx s row cfg).2)) p) true)
      | none =>
        (normStep tree p cfg, mkSummary (subAt (normStep tree p cfg) p) false)) :=
  rfl

theorem processOneCtx_shape (tree : Elem) (p : Pos) (records : Records)
    (cfg : Config) :
    ∃ (ctx : Elem) (b : Bool),
      (processOneCtx tree p records cfg).2 = mkSummary ctx b := by
  rw [processOneCtx_eq]
  cases hrowq : (if extractOrderIdCtx (subAt (normStep tree p cfg) p) = "" then none
      else records.lookup (extractOrderIdCtx (subAt (normStep tree p cfg) p))) with
  | none => exact ⟨_, false, rfl⟩
  | some row =>
    by_cases hrow : row.isEmpty
    · simp only [if_pos hrow]
      exact ⟨_, false, rfl⟩
    · simp only [if_neg hrow]
      exact ⟨_, true, rfl⟩

theorem processAllGo_shape (records : Records) (cfg : Config) :
    ∀ (ps : List Pos) (tree : Elem) (s : Summary),
      s ∈ (processAllGo tree ps records cfg).2 →
      ∃ (ctx : Elem) (b : Bool), s = mkSummary ctx b := by
  intro ps
  induction ps with
  | nil => intro tree s hs; simp [processAllGo] at hs
  | cons p rest ih =>
    intro tree s hs
    simp only [processAllGo, List.mem_cons] at hs
    rcases hs with rfl | hs
    · obtain ⟨ctx, b, hcb⟩ := processOneCtx_shape tree p records cfg
      exact ⟨ctx, b, hcb⟩
    · exact ih _ s hs

/-- C8: a context whose extracted Order Identifier is blank or has no
exactly-matching key in the order records is left alone by the mapping
step — the loop body returns the normalization-only tree together with
a summary carrying `matched = false` — and the run still produces one
summary per discovered context. -/
theorem C8_unmatched (records : Records) (cfg : Config) :
    (∀ (tree : Elem) (p : Pos),
      (extractOrderIdCtx (subAt (normStep tree p cfg) p) = "" ∨
       records.lookup (extractOrderIdCtx (subAt (normStep tree p cfg) p)) = none) →
      processOneCtx tree p records cfg =
        (normStep tree p cfg, mkSummary (subAt (normStep tree p cfg) p) false)) ∧
    (∀ root : Elem, ((processAll root records cfg).2).length =
      (findContractContexts root).length) := by
  constructor
  · intro tree p h
    have hrow : (if extractOrderIdCtx (subAt (normStep tree p cfg) p) = "" then none
        else records.lookup (extractOrderIdCtx (subAt (normStep tree p cfg) p))) =
        (none : Option Cmd) := by
      rcases h with h | h
      · rw [if_pos h]
      · by_cases hk : extractOrderIdCtx (subAt (normStep tree p cfg) p) = ""
        · rw [if_pos hk]
        · rw [if_neg hk]
          exact h
    rw [processOneCtx_eq, hrow]
  · intro root
    exact processAllGo_length records cfg (findContractContexts root) root

/-- C8 witness: `CMD1` has no record in the given mapping; the first
context of the two-contract document is processed without mapping. -/
theorem C8_unmatched_witness :
    processOneCtx exDoc2 [0] [("OTHER", [("statut", "X")])] exCfgSite =
      (normStep exDoc2 [0] exCfgSite,
       mkSummary (subAt (normStep exDoc2 [0] exCfgSite) [0]) false) :=
  (C8_unmatched [("OTHER", [("statut", "X")])] exCfgSite).1 exDoc2 [0]
    (Or.inr (by rfl))

/-- C10: every summary record produced by `process_all` has exactly the
fixed key sequence `OrderId, AssignmentId, EU, OrgUnit, Agency,
StatusCode, PositionLevel, PositionCoefficient, PersonReplaced,
matched`, the first nine values being strings and `matched` a boolean. -/
theorem C10_summary_shape (root : Elem) (records : Records) (cfg : Config) :
    ∀ s ∈ (processAll root records cfg).2,
      ∃ v1 v2 v3 v4 v5 v6 v7 v8 v9 b, s =
        [("OrderId", SumVal.str v1), ("AssignmentId", SumVal.str v2),
         ("EU", SumVal.str v3), ("OrgUnit", SumVal.str v4),
         ("Agency", SumVal.str v5), ("StatusCode", SumVal.str v6),
         ("PositionLevel", SumVal.str v7), ("PositionCoefficient", SumVal.str v8),
         ("PersonReplaced", SumVal.str v9), ("matched", SumVal.bool b)] := by
  intro s hs
  obtain ⟨ctx, b, rfl⟩ := processAllGo_shape records cfg
    (findContractContexts root) root s hs
  exact ⟨_, _, _, _, _, _, _, _, _, b, rfl⟩

/-- C10 witness: the first summary of the concrete run has the fixed
shape. -/
theorem C10_summary_shape_witness :
    ∃ v1 v2 v3 v4 v5 v6 v7 v8 v9 b,
      (processAll exDoc2 [] exCfgSite).2.headI =
        [("OrderId", SumVal.str v1), ("AssignmentId", SumVal.str v2),
         ("EU", SumVal.str v3), ("OrgUnit", SumVal.str v4),
         ("Agency", SumVal.str v5), ("StatusCode", SumVal.str v6),
         ("PositionLevel", SumVal.str v7), ("PositionCoefficient", SumVal.str v8),
         ("PersonReplaced", SumVal.str v9), ("matched", SumVal.bool b)] :=
  C10_summary_shape exDoc2 [] exCfgSite _ (by
    have h2 : (processAll exDoc2 [] exCfgSite).2.length = 2 := by rfl
    cases hl : (processAll exDoc2 [] exCfgSite).2 with
    | nil => rw [hl] at h2; cases h2
    | cons a l => simp [hl])

/-- C3 counterexample: a document whose discovery finds two NESTED
contexts (the outer contains the inner). The splitter does not produce
two outputs: pruning the outer context for the inner's file also deletes
the inner context, `find_contract_contexts(tree_copy)[0]` raises
`IndexError` (modelled as `none`), and the whole split aborts. -/
theorem C3_counterexample :
    (findContractContexts exNested).length = 2 ∧
    splitFixedByContract exNested = none :=
  ⟨rfl, rfl⟩

/-! ## Lemmas: the splitter's pruning pass

`removeMany` distributes the removal directives over the children through
`posAt0` (directives entering child 0) and `posShift` (directives for the
later children, shifted).  The lemmas below characterize that bookkeeping
and culminate in: pruning all but one of a set of pairwise incomparable
contexts leaves exactly one discoverable context, whose subtree is a
verbatim copy of the kept original. -/

theorem mem_posAt0 (rs : List Pos) (r₂ : Pos) :
    r₂ ∈ posAt0 rs ↔ (0 :: r₂) ∈ rs := by
  simp only [posAt0, List.mem_filterMap]
  constructor
  · rintro ⟨r, hr, hmap⟩
    rcases r with _ | ⟨j, r'⟩
    · simp at hmap
    · rcases j with _ | j
      · simp only [Option.some.injEq] at hmap
        subst hmap; exact hr
      · simp at hmap
  · intro h
    exact ⟨0 :: r₂, h, rfl⟩

theorem mem_posShift (rs : List Pos) (j : Nat) (r₂ : Pos) :
    (j :: r₂) ∈ posShift rs ↔ ((j + 1) :: r₂) ∈ rs := by
  simp only [posShift, List.mem_filterMap]
  constructor
  · rintro ⟨r, hr, hmap⟩
    rcases r with _ | ⟨i, r'⟩
    · simp at hmap
    · rcases i with _ | i
      · simp at hmap
      · simp only [Option.some.injEq, List.cons.injEq] at hmap
        obtain ⟨rfl, rfl⟩ := hmap
        exact hr
  · intro h
    exact ⟨(j + 1) :: r₂, h, rfl⟩

theorem posShift_shape (rs : List Pos) (y : Pos) (hy : y ∈ posShift rs) :
    ∃ j r₂, y = j :: r₂ := by
  simp only [posShift, List.mem_filterMap] at hy
  obtain ⟨r, _, hmap⟩ := hy
  rcases r with _ | ⟨i, r'⟩
  · simp at hmap
  · rcases i with _ | i
    · simp at hmap
    · simp only [Option.some.injEq] at hmap
      exact ⟨i, r', hmap.symm⟩

theorem nil_not_mem_posShift (rs : List Pos) : ([] : Pos) ∉ posShift rs := by
  intro hmem
  obtain ⟨j, r₂, heq⟩ := posShift_shape rs [] hmem
  simp at heq

theorem nodup_posAt0 (rs : List Pos) (h : rs.Nodup) : (posAt0 rs).Nodup := by
  refine List.Nodup.filterMap ?_ h
  intro a a' b hb hb'
  rcases a with _ | ⟨j, r'⟩
  · simp at hb
  · rcases j with _ | j
    · rcases a' with _ | ⟨j', r''⟩
      · simp at hb'
      · rcases j' with _ | j'
        · simp only [Option.mem_def, Option.some.injEq] at hb hb'
          rw [hb, hb']
        · simp at hb'
    · simp at hb

theorem nodup_posShift (rs : List Pos) (h : rs.Nodup) : (posShift rs).Nodup := by
  refine List.Nodup.filterMap ?_ h
  intro a a' b hb hb'
  rcases a with _ | ⟨j, r'⟩
  · simp at hb
  · rcases j with _ | j
    · simp at hb
    · rcases a' with _ | ⟨j', r''⟩
      · simp at hb'
      · rcases j' with _ | j'
        · simp at hb'
        · simp only [Option.mem_def, Option.some.injEq] at hb hb'
          rw [← hb'] at hb
          simp only [List.cons.injEq] at hb
          obtain ⟨rfl, rfl⟩ := hb
          rfl

theorem length_posAt0_add_posShift (rs : List Pos) (h : ([] : Pos) ∉ rs) :
    (posAt0 rs).length + (posShift rs).length = rs.length := by
  induction rs with
  | nil => rfl
  | cons r rs ih =>
    have hr : r ≠ [] := fun heq => h (by simp [heq])
    have ih' := ih (fun hmem => h (by simp [hmem]))
    rcases r with _ | ⟨j, r₂⟩
    · exact absurd rfl hr
    · rcases j with _ | j
      · simp only [posAt0, posShift, List.filterMap_cons] at ih' ⊢
        simp only [List.length_cons]
        omega
      · simp only [posAt0, posShift, List.filterMap_cons] at ih' ⊢
        simp only [List.length_cons]
        omega

theorem posAt0_eq_nil (rs : List Pos) (h : ∀ r₂ : Pos, (0 :: r₂) ∉ rs) :
    posAt0 rs = [] := by
  rw [List.eq_nil_iff_forall_not_mem]
  intro r₂ hr₂
  exact h r₂ ((mem_posAt0 rs r₂).1 hr₂)

theorem posAt0_singleton (rs : List Pos) (hmem : ([0] : Pos) ∈ rs)
    (hnd : rs.Nodup) (hno : ∀ r₂ : Pos, r₂ ≠ [] → (0 :: r₂) ∉ rs) :
    posAt0 rs = [[]] := by
  induction rs with
  | nil => simp at hmem
  | cons r rs ih =>
    have hnd' := (List.nodup_cons.1 hnd).2
    rcases List.mem_cons.1 hmem with heq | hmem'
    · rw [← heq]
      simp only [posAt0, List.filterMap_cons]
      have hz : posAt0 rs = [] := by
        refine posAt0_eq_nil rs (fun r₂ hr₂ => ?_)
        rcases Decidable.em (r₂ = []) with rfl | hne
        · exact (List.nodup_cons.1 hnd).1 (heq ▸ hr₂)
        · exact hno r₂ hne (by simp [hr₂])
      simp only [posAt0] at hz
      rw [hz]
    · rcases r with _ | ⟨j, r₂⟩
      · simp only [posAt0, List.filterMap_cons]
        exact ih hmem' hnd' (fun r₂ hne hmem₂ => hno r₂ hne (by simp [hmem₂]))
      · rcases j with _ | j
        · rcases Decidable.em (r₂ = []) with rfl | hne
          · exact absurd hmem' (List.nodup_cons.1 hnd).1
          · exact absurd (by simp : (0 :: r₂) ∈ (0 :: r₂) :: rs) (hno r₂ hne)
        · simp only [posAt0, List.filterMap_cons]
          exact ih hmem' hnd' (fun r₂ hne hmem₂ => hno r₂ hne (by simp [hmem₂]))

theorem mem_posAt0_shiftIter :
    ∀ (j : Nat) (rs : List Pos) (r₂ : Pos),
      r₂ ∈ posAt0 (posShiftIter j rs) ↔ (j :: r₂) ∈ rs := by
  intro j
  induction j with
  | zero => intro rs r₂; exact mem_posAt0 rs r₂
  | succ j ihj =>
    intro rs r₂
    rw [show posShiftIter (j + 1) rs = posShiftIter j (posShift rs) from rfl]
    rw [ihj (posShift rs) r₂, mem_posShift]

theorem ctxPred_nil (e : Elem) : ctxPred e [] = hasMarkerChild e := rfl

theorem ctxPred_cons (t : String) (x : Option String) (cs : List Elem)
    (j : Nat) (r : Pos) :
    ctxPred (Elem.mk t x cs) (j :: r) =
      match cs[j]? with
      | some c => ctxPred c r
      | none => false := by
  simp only [ctxPred, Elem.get?]
  cases cs[j]? <;> rfl

theorem findContractContexts_eq (root : Elem) :
    findContractContexts root = (subtreePos root).filter (ctxPred root) := rfl

theorem mem_findContractContexts (root : Elem) (p : Pos) :
    p ∈ findContractContexts root ↔ ctxPred root p = true := by
  rw [findContractContexts_eq, List.mem_filter]
  constructor
  · exact fun h => h.2
  · intro h
    refine ⟨?_, h⟩
    rw [mem_subtreePos]
    cases hg : root.get? p with
    | none =>
      simp only [ctxPred, hg] at h
      exact absurd h (by simp)
    | some s => rfl

theorem nodup_findContractContexts (root : Elem) :
    (findContractContexts root).Nodup := by
  rw [findContractContexts_eq]
  exact (subtreePos_nodup root).filter _

theorem removeManyList_nil (cs : List Elem)
    (hrec : ∀ c ∈ cs, removeMany c [] = c) : removeManyList cs [] = cs := by
  induction cs with
  | nil => rfl
  | cons c cs ih =>
    simp only [removeManyList]
    rw [if_neg (by simp)]
    rw [show posAt0 [] = [] from rfl, show posShift [] = [] from rfl]
    rw [hrec c (by simp), ih (fun c' hc' => hrec c' (by simp [hc']))]

theorem removeMany_nil_aux :
    ∀ (n : Nat) (e : Elem), sizeOf e ≤ n → removeMany e [] = e := by
  intro n
  induction n with
  | zero => intro e h; cases e with | mk t x cs => simp at h
  | succ n ih =>
    intro e h
    cases e with
    | mk t x cs =>
      simp only [removeMany]
      refine congrArg (Elem.mk t x) (removeManyList_nil cs (fun c hc => ih c ?_))
      have h1 : sizeOf c < sizeOf cs := List.sizeOf_lt_of_mem hc
      simp only [Elem.mk.sizeOf_spec] at h
      omega

theorem removeMany_nil (e : Elem) : removeMany e [] = e :=
  removeMany_nil_aux (sizeOf e) e (Nat.le_refl _)

theorem tag_removeMany (e : Elem) (rs : List Pos) :
    (removeMany e rs).tag = e.tag := by
  cases e with | mk t x cs => simp [removeMany, Elem.tag]

theorem text_removeMany (e : Elem) (rs : List Pos) :
    (removeMany e rs).text = e.text := by
  cases e with | mk t x cs => simp [removeMany, Elem.text]

theorem removeManyList_mem_src :
    ∀ (cs : List Elem) (rs : List Pos) (c' : Elem), c' ∈ removeManyList cs rs →
      ∃ c ∈ cs, ∃ σ, c' = removeMany c σ := by
  intro cs
  induction cs with
  | nil => intro rs c' h; simp [removeManyList] at h
  | cons c cs ih =>
    intro rs c' h
    simp only [removeManyList] at h
    by_cases h0 : ([0] : Pos) ∈ rs
    · rw [if_pos h0] at h
      obtain ⟨c₀, hc₀, σ, rfl⟩ := ih (posShift rs) c' h
      exact ⟨c₀, by simp [hc₀], σ, rfl⟩
    · rw [if_neg h0] at h
      rcases List.mem_cons.1 h with rfl | h'
      · exact ⟨c, by simp, posAt0 rs, rfl⟩
      · obtain ⟨c₀, hc₀, σ, rfl⟩ := ih (posShift rs) c' h'
        exact ⟨c₀, by simp [hc₀], σ, rfl⟩

theorem children_removeMany_src (c : Elem) (σ : List Pos) (g' : Elem)
    (h : g' ∈ (removeMany c σ).children) :
    ∃ g ∈ c.children, ∃ σ₂, g' = removeMany g σ₂ := by
  cases c with
  | mk t x cs =>
    simp only [removeMany, Elem.children] at h ⊢
    exact removeManyList_mem_src cs σ g' h

theorem isMarker_removeMany (c : Elem) (σ : List Pos)
    (h : isMarker (removeMany c σ) = true) : isMarker c = true := by
  simp only [isMarker, Bool.and_eq_true, List.any_eq_true] at h ⊢
  obtain ⟨⟨htag, c₁, hc₁, ht₁, g₁, hg₁, hpg₁⟩, c₂, hc₂, ht₂, g₂, hg₂, hpg₂⟩ := h
  rw [tag_removeMany] at htag
  obtain ⟨c₀, hc₀, σ₁, rfl⟩ := children_removeMany_src c σ c₁ hc₁
  obtain ⟨d₀, hd₀, σ₂, rfl⟩ := children_removeMany_src c σ c₂ hc₂
  rw [tag_removeMany] at ht₁ ht₂
  obtain ⟨g₁', hg₁', σg₁, rfl⟩ := children_removeMany_src c₀ σ₁ g₁ hg₁
  obtain ⟨g₂', hg₂', σg₂, rfl⟩ := children_removeMany_src d₀ σ₂ g₂ hg₂
  rw [tag_removeMany] at hpg₁ hpg₂
  exact ⟨⟨htag, c₀, hc₀, ht₁, g₁', hg₁', hpg₁⟩, d₀, hd₀, ht₂, g₂', hg₂', hpg₂⟩

theorem hasMarkerChild_removeMany (e : Elem) (σ : List Pos)
    (h : hasMarkerChild (removeMany e σ) = true) : hasMarkerChild e = true := by
  simp only [hasMarkerChild, List.any_eq_true] at h ⊢
  obtain ⟨c', hc', hm⟩ := h
  obtain ⟨c, hc, σ₂, rfl⟩ := children_removeMany_src e σ c' hc'
  exact ⟨c, hc, isMarker_removeMany c σ₂ hm⟩

theorem countP_subtreePosList (t : String) (x : Option String) :
    ∀ (cs full : List Elem) (k : Nat), full.drop k = cs →
      (∀ c ∈ cs, (subtreePos c).countP (ctxPred c) = ctxCount c) →
      (subtreePosList k cs).countP (ctxPred (Elem.mk t x full)) = ctxCountList cs := by
  intro cs
  induction cs with
  | nil => intro full k _ _; simp [subtreePosList, ctxCountList]
  | cons c cs ih =>
    intro full k hdrop hrec
    have hfk : full[k]? = some c := by
      have := List.getElem?_drop full k 0
      rw [hdrop] at this
      exact (by simpa using this : some c = full[k]?).symm
    simp only [subtreePosList, ctxCountList, List.countP_append]
    have h1 : (List.map (fun p => k :: p) (subtreePos c)).countP
        (ctxPred (Elem.mk t x full)) = (subtreePos c).countP (ctxPred c) := by
      rw [List.countP_map]
      refine List.countP_congr (fun p _ => ?_)
      show ctxPred (Elem.mk t x full) (k :: p) = true ↔ ctxPred c p = true
      rw [ctxPred_cons, hfk]
    have h2 : (subtreePosList (k + 1) cs).countP (ctxPred (Elem.mk t x full))
        = ctxCountList cs := by
      refine ih full (k + 1) ?_ (fun c' hc' => hrec c' (by simp [hc']))
      rw [show k + 1 = k + 1 from rfl, ← List.drop_drop 1 k full, hdrop]
      rfl
    rw [h1, h2, hrec c (by simp)]

theorem countP_subtreePos_aux : ∀ (n : Nat) (e : Elem), sizeOf e ≤ n →
    (subtreePos e).countP (ctxPred e) = ctxCount e := by
  intro n
  induction n with
  | zero => intro e h; cases e with | mk t x cs => simp at h
  | succ n ih =>
    intro e h
    cases e with
    | mk t x cs =>
      simp only [subtreePos, ctxCount, List.countP_cons]
      rw [countP_subtreePosList t x cs cs 0 (by simp)
        (fun c hc => ih c (by
          have h1 : sizeOf c < sizeOf cs := List.sizeOf_lt_of_mem hc
          simp only [Elem.mk.sizeOf_spec] at h
          omega))]
      have hpr : ctxPred (Elem.mk t x cs) [] = cs.any isMarker := rfl
      rw [hpr]
      cases hb : cs.any isMarker <;> simp <;> omega

theorem countP_subtreePos (e : Elem) :
    (subtreePos e).countP (ctxPred e) = ctxCount e :=
  countP_subtreePos_aux (sizeOf e) e (Nat.le_refl _)

theorem length_findContractContexts (e : Elem) :
    (findContractContexts e).length = ctxCount e := by
  rw [findContractContexts_eq, ← List.countP_eq_length_filter]
  exact countP_subtreePos e

theorem ctxCount_eq_one (c : Elem) (h0 : ctxPred c [] = true)
    (h1 : ∀ q : Pos, q ≠ [] → ctxPred c q = false) : ctxCount c = 1 := by
  rw [← countP_subtreePos]
  cases c with
  | mk t x cs =>
    simp only [subtreePos, List.countP_cons]
    have hz : (subtreePosList 0 cs).countP (ctxPred (Elem.mk t x cs)) = 0 := by
      rw [List.countP_eq_zero]
      intro q hq
      obtain ⟨i, q', rfl, _⟩ := subtreePosList_shape cs 0 q hq
      simp [h1 (i :: q') (by simp)]
    rw [hz, h0]
    rfl

theorem one_le_ctxCount (c : Elem) (h : ctxPred c [] = true) : 1 ≤ ctxCount c := by
  cases c with
  | mk t x cs =>
    have hm : cs.any isMarker = true := h
    simp only [ctxCount, hm, if_true]
    omega

theorem ctxCount_removeManyList :
    ∀ cs : List Elem,
      (∀ c ∈ cs, ∀ σ : List Pos,
        ([] : Pos) ∉ σ →
        (∀ r ∈ σ, ctxPred c r = true) →
        (∀ r ∈ σ, ∀ q : Pos, ctxPred c q = true → q ≠ r → ¬ q <+: r ∧ ¬ r <+: q) →
        σ.Nodup →
        σ.length ≤ ctxCount c ∧
        ctxCount (removeMany c σ) = ctxCount c - σ.length) →
      ∀ rs : List Pos,
        (∀ r ∈ rs, ∃ j r₂, r = j :: r₂ ∧ ∃ c, cs[j]? = some c ∧ ctxPred c r₂ = true) →
        (∀ (j : Nat) (r₂ : Pos) (c : Elem), (j :: r₂) ∈ rs → cs[j]? = some c →
          ∀ q₂ : Pos, ctxPred c q₂ = true → q₂ ≠ r₂ → ¬ q₂ <+: r₂ ∧ ¬ r₂ <+: q₂) →
        rs.Nodup →
        rs.length ≤ ctxCountList cs ∧
        ctxCountList (removeManyList cs rs) = ctxCountList cs - rs.length := by
  intro cs
  induction cs with
  | nil =>
    intro _ rs h2 _ _
    have hrs : rs = [] := by
      rw [List.eq_nil_iff_forall_not_mem]
      intro r hr
      obtain ⟨j, r₂, rfl, c, hc, _⟩ := h2 r hr
      simp at hc
    subst hrs
    simp [removeManyList, ctxCountList]
  | cons c cs' ih =>
    intro hrec rs h2 h4 h5
    have hrec' : ∀ c' ∈ cs', ∀ σ : List Pos,
        ([] : Pos) ∉ σ →
        (∀ r ∈ σ, ctxPred c' r = true) →
        (∀ r ∈ σ, ∀ q : Pos, ctxPred c' q = true → q ≠ r → ¬ q <+: r ∧ ¬ r <+: q) →
        σ.Nodup →
        σ.length ≤ ctxCount c' ∧
        ctxCount (removeMany c' σ) = ctxCount c' - σ.length :=
      fun c' hc' => hrec c' (by simp [hc'])
    have h1 : ([] : Pos) ∉ rs := by
      intro hmem
      obtain ⟨j, r₂, heq, _⟩ := h2 [] hmem
      simp at heq
    have h2s : ∀ r ∈ posShift rs, ∃ j r₂, r = j :: r₂ ∧
        ∃ c', cs'[j]? = some c' ∧ ctxPred c' r₂ = true := by
      intro r hr
      obtain ⟨j, r₂, rfl⟩ := posShift_shape rs r hr
      have hmem : ((j + 1) :: r₂) ∈ rs := (mem_posShift rs j r₂).1 hr
      obtain ⟨j', r₂', heq, c', hc', hp⟩ := h2 _ hmem
      injection heq with e1 e2
      subst e1
      subst e2
      simp only [List.getElem?_cons_succ] at hc'
      exact ⟨j, r₂, rfl, c', hc', hp⟩
    have h4s : ∀ (j : Nat) (r₂ : Pos) (c' : Elem), (j :: r₂) ∈ posShift rs →
        cs'[j]? = some c' →
        ∀ q₂ : Pos, ctxPred c' q₂ = true → q₂ ≠ r₂ →
          ¬ q₂ <+: r₂ ∧ ¬ r₂ <+: q₂ := by
      intro j r₂ c' hmem hc' q₂ hq hne
      refine h4 (j + 1) r₂ c' ((mem_posShift rs j r₂).1 hmem) ?_ q₂ hq hne
      simpa using hc'
    have h5s : (posShift rs).Nodup := nodup_posShift rs h5
    have hcc : (c :: cs')[0]? = some c := by simp
    by_cases h0 : ([0] : Pos) ∈ rs
    · have hcm : ctxPred c [] = true := by
        obtain ⟨j, r₂, heq, c', hc', hp⟩ := h2 [0] h0
        injection heq with e1 e2
        subst e1
        subst e2
        simp only [List.getElem?_cons_zero, Option.some.injEq] at hc'
        subst hc'
        exact hp
      have hnodeep : ∀ r₂ : Pos, r₂ ≠ [] → (0 :: r₂) ∉ rs := by
        intro r₂ hne hmem
        have := h4 0 r₂ c hmem hcc [] hcm (fun heq => hne heq.symm)
        exact this.1 (List.nil_prefix)
      have hone : ctxCount c = 1 := by
        refine ctxCount_eq_one c hcm (fun q hqne => ?_)
        cases hcq : ctxPred c q with
        | false => rfl
        | true =>
          have := h4 0 [] c h0 hcc q hcq hqne
          exact ((this.2 (List.nil_prefix)).elim)
      have hA0 : posAt0 rs = [[]] := posAt0_singleton rs h0 h5 hnodeep
      have hlenp := length_posAt0_add_posShift rs h1
      rw [hA0] at hlenp
      simp only [List.length_cons, List.length_nil] at hlenp
      obtain ⟨ihle, iheq⟩ := ih hrec' (posShift rs) h2s h4s h5s
      constructor
      · simp only [ctxCountList]
        omega
      · simp only [removeManyList]
        rw [if_pos h0]
        simp only [ctxCountList]
        omega
    · have h1a : ([] : Pos) ∉ posAt0 rs := fun hmem => h0 ((mem_posAt0 rs []).1 hmem)
      have h2a : ∀ r ∈ posAt0 rs, ctxPred c r = true := by
        intro r hr
        have hmem := (mem_posAt0 rs r).1 hr
        obtain ⟨j, r₂, heq, c', hc', hp⟩ := h2 _ hmem
        injection heq with e1 e2
        subst e1
        subst e2
        simp only [List.getElem?_cons_zero, Option.some.injEq] at hc'
        subst hc'
        exact hp
      have h4a : ∀ r ∈ posAt0 rs, ∀ q : Pos, ctxPred c q = true → q ≠ r →
          ¬ q <+: r ∧ ¬ r <+: q := by
        intro r hr q hq hne
        exact h4 0 r c ((mem_posAt0 rs r).1 hr) hcc q hq hne
      have h5a : (posAt0 rs).Nodup := nodup_posAt0 rs h5
      obtain ⟨hle₁, heq₁⟩ := hrec c (by simp) (posAt0 rs) h1a h2a h4a h5a
      obtain ⟨ihle, iheq⟩ := ih hrec' (posShift rs) h2s h4s h5s
      have hlenp := length_posAt0_add_posShift rs h1
      constructor
      · simp only [ctxCountList]
        omega
      · simp only [removeManyList]
        rw [if_neg h0]
        simp only [ctxCountList]
        omega

theorem ctxCount_removeMany_aux : ∀ (n : Nat) (e : Elem), sizeOf e ≤ n →
    ∀ rs : List Pos, ([] : Pos) ∉ rs →
      (∀ r ∈ rs, ctxPred e r = true) →
      (∀ r ∈ rs, ∀ q : Pos, ctxPred e q = true → q ≠ r → ¬ q <+: r ∧ ¬ r <+: q) →
      rs.Nodup →
      rs.length ≤ ctxCount e ∧
      ctxCount (removeMany e rs) = ctxCount e - rs.length := by
  intro n
  induction n with
  | zero => intro e h; cases e with | mk t x cs => simp at h
  | succ n ih =>
    intro e h rs h1 h2 h4 h5
    cases e with
    | mk t x cs =>
      by_cases hroot : ctxPred (Elem.mk t x cs) [] = true
      · have hrs : rs = [] := by
          rw [List.eq_nil_iff_forall_not_mem]
          intro r hr
          have hne : ([] : Pos) ≠ r := fun heq => h1 (heq ▸ hr)
          exact (h4 r hr [] hroot hne).1 (List.nil_prefix)
        subst hrs
        rw [removeMany_nil]
        simp
      · have h2l : ∀ r ∈ rs, ∃ j r₂, r = j :: r₂ ∧
            ∃ c, cs[j]? = some c ∧ ctxPred c r₂ = true := by
          intro r hr
          rcases r with _ | ⟨j, r₂⟩
          · exact absurd hr h1
          · refine ⟨j, r₂, rfl, ?_⟩
            have hp := h2 _ hr
            rw [ctxPred_cons] at hp
            cases hc : cs[j]? with
            | none => rw [hc] at hp; simp at hp
            | some c => rw [hc] at hp; exact ⟨c, rfl, hp⟩
        have h4l : ∀ (j : Nat) (r₂ : Pos) (c : Elem), (j :: r₂) ∈ rs →
            cs[j]? = some c →
            ∀ q₂ : Pos, ctxPred c q₂ = true → q₂ ≠ r₂ →
              ¬ q₂ <+: r₂ ∧ ¬ r₂ <+: q₂ := by
          intro j r₂ c hmem hc q₂ hq₂ hne
          have hqe : ctxPred (Elem.mk t x cs) (j :: q₂) = true := by
            rw [ctxPred_cons, hc]
            exact hq₂
          have hne' : (j :: q₂ : Pos) ≠ j :: r₂ := by
            intro heq
            injection heq with _ e2
            exact hne e2
          have hj := h4 (j :: r₂) hmem (j :: q₂) hqe hne'
          constructor
          · intro hp
            exact hj.1 (List.cons_prefix_cons.2 ⟨rfl, hp⟩)
          · intro hp
            exact hj.2 (List.cons_prefix_cons.2 ⟨rfl, hp⟩)
        obtain ⟨hle, heq⟩ := ctxCount_removeManyList cs
          (fun c hc σ hσ1 hσ2 hσ4 hσ5 => ih c (by
            have h1' : sizeOf c < sizeOf cs := List.sizeOf_lt_of_mem hc
            simp only [Elem.mk.sizeOf_spec] at h
            omega) σ hσ1 hσ2 hσ4 hσ5)
          rs h2l h4l h5
        have hrootA : ¬ cs.any isMarker = true := hroot
        have hnoM : ¬ (removeManyList cs rs).any isMarker = true := by
          intro hany
          apply hrootA
          have hmc : hasMarkerChild (removeMany (Elem.mk t x cs) rs) = true := by
            simp only [removeMany, hasMarkerChild, Elem.children]
            exact hany
          exact hasMarkerChild_removeMany _ rs hmc
        have hcceq : ctxCount (Elem.mk t x cs) = ctxCountList cs := by
          simp only [ctxCount]
          rw [if_neg hrootA]
          omega
        have hcopy : ctxCount (removeMany (Elem.mk t x cs) rs)
            = ctxCountList (removeManyList cs rs) := by
          simp only [removeMany, ctxCount]
          rw [if_neg hnoM]
          omega
        rw [hcopy, hcceq]
        exact ⟨hle, heq⟩

theorem ctxCount_removeMany (e : Elem) (rs : List Pos)
    (h1 : ([] : Pos) ∉ rs)
    (h2 : ∀ r ∈ rs, ctxPred e r = true)
    (h4 : ∀ r ∈ rs, ∀ q : Pos, ctxPred e q = true → q ≠ r → ¬ q <+: r ∧ ¬ r <+: q)
    (h5 : rs.Nodup) :
    rs.length ≤ ctxCount e ∧
    ctxCount (removeMany e rs) = ctxCount e - rs.length :=
  ctxCount_removeMany_aux (sizeOf e) e (Nat.le_refl _) rs h1 h2 h4 h5

theorem removeManyList_get :
    ∀ (j : Nat) (cs : List Elem) (rs : List Pos) (c : Elem),
      cs[j]? = some c → ([j] : Pos) ∉ rs →
      ∃ j' : Nat, (removeManyList cs rs)[j']?
        = some (removeMany c (posAt0 (posShiftIter j rs))) := by
  intro j
  induction j with
  | zero =>
    intro cs rs c hc h0
    cases cs with
    | nil => simp at hc
    | cons c₀ cs' =>
      simp only [List.getElem?_cons_zero, Option.some.injEq] at hc
      subst hc
      refine ⟨0, ?_⟩
      simp only [removeManyList]
      rw [if_neg h0]
      simp only [List.getElem?_cons_zero]
      rfl
  | succ j ihj =>
    intro cs rs c hc hj
    cases cs with
    | nil => simp at hc
    | cons c₀ cs' =>
      have hc' : cs'[j]? = some c := by simpa using hc
      have hjs : ([j] : Pos) ∉ posShift rs := by
        intro hmem
        exact hj ((mem_posShift rs j []).1 hmem)
      have hstep : posShiftIter (j + 1) rs = posShiftIter j (posShift rs) := rfl
      obtain ⟨j', hget⟩ := ihj cs' (posShift rs) c hc' hjs
      by_cases h0 : ([0] : Pos) ∈ rs
      · refine ⟨j', ?_⟩
        simp only [removeManyList]
        rw [if_pos h0, hstep]
        exact hget
      · refine ⟨j' + 1, ?_⟩
        simp only [removeManyList]
        rw [if_neg h0, hstep]
        simpa using hget

theorem removeMany_preserve :
    ∀ (q : Pos) (e : Elem) (rs : List Pos),
      (∀ r ∈ rs, ¬ r <+: q ∧ ¬ q <+: r) →
      (e.get? q).isSome →
      ∃ q', (removeMany e rs).get? q' = e.get? q := by
  intro q
  induction q with
  | nil =>
    intro e rs hinc _
    have hrs : rs = [] := by
      rw [List.eq_nil_iff_forall_not_mem]
      intro r hr
      exact (hinc r hr).2 (List.nil_prefix)
    subst hrs
    exact ⟨[], by rw [removeMany_nil]⟩
  | cons j q₂ ih =>
    intro e rs hinc hvalid
    cases e with
    | mk t x cs =>
      obtain ⟨c, hcj⟩ : ∃ c, cs[j]? = some c := by
        cases hcj : cs[j]? with
        | none => simp [Elem.get?, hcj] at hvalid
        | some c => exact ⟨c, rfl⟩
      have hvalid₂ : (c.get? q₂).isSome := by
        simp only [Elem.get?, hcj] at hvalid
        exact hvalid
      have hjn : ([j] : Pos) ∉ rs := by
        intro hmem
        exact (hinc [j] hmem).1 ⟨q₂, rfl⟩
      obtain ⟨j', hj'⟩ := removeManyList_get j cs rs c hcj hjn
      have hincσ : ∀ r ∈ posAt0 (posShiftIter j rs), ¬ r <+: q₂ ∧ ¬ q₂ <+: r := by
        intro r hr
        have hmem : (j :: r) ∈ rs := (mem_posAt0_shiftIter j rs r).1 hr
        have hpair := hinc (j :: r) hmem
        constructor
        · intro hp
          exact hpair.1 (List.cons_prefix_cons.2 ⟨rfl, hp⟩)
        · intro hp
          exact hpair.2 (List.cons_prefix_cons.2 ⟨rfl, hp⟩)
      obtain ⟨q₂', hq₂'⟩ := ih c (posAt0 (posShiftIter j rs)) hincσ hvalid₂
      refine ⟨j' :: q₂', ?_⟩
      simp only [removeMany, Elem.get?, hj', hcj]
      exact hq₂'

theorem removeMany_node_src :
    ∀ (q' : Pos) (e : Elem) (rs : List Pos) (e' : Elem),
      (removeMany e rs).get? q' = some e' →
      ∃ q e₀, e.get? q = some e₀ ∧ e'.tag = e₀.tag ∧ e'.text = e₀.text := by
  intro q'
  induction q' with
  | nil =>
    intro e rs e' h
    have h0 : (removeMany e rs).get? [] = some (removeMany e rs) := rfl
    rw [h0, Option.some.injEq] at h
    subst h
    exact ⟨[], e, rfl, tag_removeMany e rs, text_removeMany e rs⟩
  | cons j' q₂' ih =>
    intro e rs e' h
    cases e with
    | mk t x cs =>
      simp only [removeMany, Elem.get?] at h
      cases hg : (removeManyList cs rs)[j']? with
      | none => rw [hg] at h; simp at h
      | some c' =>
        rw [hg] at h
        obtain ⟨c, hc, σ, rfl⟩ :=
          removeManyList_mem_src cs rs c' (List.getElem?_mem hg)
        obtain ⟨q, e₀, hq, ht, hx⟩ := ih c σ e' h
        obtain ⟨j, hj⟩ := List.mem_iff_getElem?.1 hc
        refine ⟨j :: q, e₀, ?_, ht, hx⟩
        simp only [Elem.get?, hj]
        exact hq

theorem ctxPred_isSome (root : Elem) (q : Pos) (h : ctxPred root q = true) :
    (root.get? q).isSome := by
  cases hg : root.get? q with
  | none =>
    simp only [ctxPred, hg] at h
    exact absurd h (by simp)
  | some s => rfl

theorem nodup_not_mem_eraseIdx {α : Type} :
    ∀ (l : List α) (i : Nat) (h : i < l.length), l.Nodup →
      l.get ⟨i, h⟩ ∉ l.eraseIdx i := by
  intro l
  induction l with
  | nil => intro i h; simp at h
  | cons a l ihl =>
    intro i h hnd
    cases i with
    | zero =>
      simp only [List.eraseIdx_cons_zero]
      exact (List.nodup_cons.1 hnd).1
    | succ i =>
      simp only [List.eraseIdx_cons_succ]
      intro hmem
      have hlt : i < l.length := by simpa using h
      have hget : (a :: l).get ⟨i + 1, h⟩ = l.get ⟨i, hlt⟩ := rfl
      rcases List.mem_cons.1 hmem with heq | hmem'
      · rw [hget] at heq
        exact (List.nodup_cons.1 hnd).1 (heq ▸ List.get_mem l i hlt)
      · rw [hget] at hmem'
        exact ihl i hlt (List.nodup_cons.1 hnd).2 hmem'

theorem mapM_option_of_isSome {α β : Type} :
    ∀ (l : List α) (f : α → Option β),
      (∀ a ∈ l, (f a).isSome) →
      ∃ ys : List β, l.mapM f = some ys ∧ ys.length = l.length ∧
        ∀ (i : Nat) (h1 : i < l.length) (h2 : i < ys.length),
          f (l.get ⟨i, h1⟩) = some (ys.get ⟨i, h2⟩) := by
  intro l
  induction l with
  | nil =>
    intro f _
    refine ⟨[], rfl, rfl, ?_⟩
    intro i h1
    simp at h1
  | cons a l ihl =>
    intro f hf
    obtain ⟨b, hb⟩ := Option.isSome_iff_exists.1 (hf a (by simp))
    obtain ⟨ys, hys, hlen, hidx⟩ := ihl f (fun a' ha' => hf a' (by simp [ha']))
    refine ⟨b :: ys, ?_, by simp [hlen], ?_⟩
    · rw [List.mapM_cons, hb, hys]
      rfl
    · intro i h1 h2
      cases i with
      | zero => exact hb
      | succ i => exact hidx i (by simpa using h1) (by simpa using h2)

theorem split_one (root : Elem) (i : Nat)
    (hpw : ∀ p ∈ findContractContexts root, ∀ q ∈ findContractContexts root,
      p ≠ q → ¬ p <+: q)
    (hi : i < (findContractContexts root).length) :
    ∃ ψ, findContractContexts
        (removeMany root ((findContractContexts root).eraseIdx i)) = [ψ] ∧
      (removeMany root ((findContractContexts root).eraseIdx i)).get? ψ
        = root.get? ((findContractContexts root).get ⟨i, hi⟩) := by
  have hndC : (findContractContexts root).Nodup := nodup_findContractContexts root
  set C := findContractContexts root with hC
  set rs := C.eraseIdx i with hrs
  set q := C.get ⟨i, hi⟩ with hq
  have hqC : q ∈ C := List.get_mem C i hi
  have hqrs : q ∉ rs := nodup_not_mem_eraseIdx C i hi hndC
  have hsub : ∀ r ∈ rs, r ∈ C :=
    fun r hr => List.Sublist.mem hr (List.eraseIdx_sublist C i)
  have h1 : ([] : Pos) ∉ rs := by
    intro hmem
    have hC0 : ([] : Pos) ∈ C := hsub [] hmem
    have hne : ([] : Pos) ≠ q := fun heq => hqrs (heq ▸ hmem)
    exact hpw [] hC0 q hqC hne (List.nil_prefix)
  have h2 : ∀ r ∈ rs, ctxPred root r = true :=
    fun r hr => (mem_findContractContexts root r).1 (hsub r hr)
  have h4 : ∀ r ∈ rs, ∀ p : Pos, ctxPred root p = true → p ≠ r →
      ¬ p <+: r ∧ ¬ r <+: p := by
    intro r hr p hp hne
    have hrC := hsub r hr
    have hpC := (mem_findContractContexts root p).2 hp
    exact ⟨hpw p hpC r hrC hne, hpw r hrC p hpC (fun h => hne h.symm)⟩
  have h5 : rs.Nodup := List.Nodup.sublist (List.eraseIdx_sublist C i) hndC
  obtain ⟨hle, hcnt⟩ := ctxCount_removeMany root rs h1 h2 h4 h5
  have hlen : rs.length = C.length - 1 := by
    rw [hrs]
    exact List.length_eraseIdx_of_lt hi
  have hNc : C.length = ctxCount root := by
    rw [hC]
    exact length_findContractContexts root
  have hcopy1 : ctxCount (removeMany root rs) = 1 := by
    rw [hcnt]
    omega
  have hfind1 : (findContractContexts (removeMany root rs)).length = 1 := by
    rw [length_findContractContexts]
    exact hcopy1
  have hqct : ctxPred root q = true := (mem_findContractContexts root q).1 hqC
  have hqvalid : (root.get? q).isSome := ctxPred_isSome root q hqct
  have hincq : ∀ r ∈ rs, ¬ r <+: q ∧ ¬ q <+: r := by
    intro r hr
    have hrC := hsub r hr
    have hne : q ≠ r := fun heq => hqrs (heq ▸ hr)
    exact ⟨hpw r hrC q hqC (fun h => hne h.symm), hpw q hqC r hrC hne⟩
  obtain ⟨q', hq'⟩ := removeMany_preserve q root rs hincq hqvalid
  have hq'ctx : ctxPred (removeMany root rs) q' = true := by
    simp only [ctxPred, hq']
    simp only [ctxPred] at hqct
    exact hqct
  have hq'mem : q' ∈ findContractContexts (removeMany root rs) :=
    (mem_findContractContexts _ q').2 hq'ctx
  obtain ⟨ψ, hψ⟩ : ∃ ψ, findContractContexts (removeMany root rs) = [ψ] := by
    cases hF : findContractContexts (removeMany root rs) with
    | nil => rw [hF] at hfind1; simp at hfind1
    | cons a l =>
      cases l with
      | nil => exact ⟨a, rfl⟩
      | cons b l' => rw [hF] at hfind1; simp at hfind1
  refine ⟨ψ, hψ, ?_⟩
  have hqψ : q' = ψ := by
    rw [hψ] at hq'mem
    simpa using hq'mem
  rw [← hqψ]
  exact hq'

theorem splitStep_eq (root : Elem) (i : Nat)
    (hpw : ∀ p ∈ findContractContexts root, ∀ q ∈ findContractContexts root,
      p ≠ q → ¬ p <+: q)
    (hi : i < (findContractContexts root).length) :
    splitStep root i = some
      (orBlank
        (extractOrderIdCtx (subAt root ((findContractContexts root).get ⟨i, hi⟩)))
        ("NOORDER_" ++ pad3 (i + 1)),
       orBlank
        (extractAssignmentIdCtx (subAt root ((findContractContexts root).get ⟨i, hi⟩)))
        ("NOASSIGN_" ++ pad3 (i + 1)),
       removeMany root ((findContractContexts root).eraseIdx i)) := by
  obtain ⟨ψ, hψ, hpres⟩ := split_one root i hpw hi
  have hsubeq : subAt (removeMany root ((findContractContexts root).eraseIdx i)) ψ
      = subAt root ((findContractContexts root).get ⟨i, hi⟩) := by
    simp only [subAt, hpres]
  simp only [splitStep, hψ, hsubeq]

/-- C3 (amended): splitting a processed document in which discovery finds
N contexts, PROVIDED no discovered context is an ancestor of another
(pairwise prefix-incomparable positions), produces exactly N outputs; the
i-th output has discovery-count exactly one, its unique discovered
context carrying the untouched subtree of the i-th original context; the
i-th identifier pair is the i-th context's identifiers with blank ones
replaced by the zero-padded `NOORDER_`/`NOASSIGN_` placeholders; and no
node of any output carries a tag or text value that did not occur at a
node of the original document (splitting never mutates field values). -/
theorem C3_amended (root : Elem)
    (hpw : ∀ p ∈ findContractContexts root, ∀ q ∈ findContractContexts root,
      p ≠ q → ¬ p <+: q) :
    ∃ out : List (String × String × Elem),
      splitFixedByContract root = some out ∧
      out.length = (findContractContexts root).length ∧
      (∀ (i : Nat) (h1 : i < (findContractContexts root).length)
          (h2 : i < out.length),
        (∃ ψ, findContractContexts (out.get ⟨i, h2⟩).2.2 = [ψ] ∧
          (out.get ⟨i, h2⟩).2.2.get? ψ
            = root.get? ((findContractContexts root).get ⟨i, h1⟩)) ∧
        (out.get ⟨i, h2⟩).1
          = orBlank
              (extractOrderIdCtx (subAt root ((findContractContexts root).get ⟨i, h1⟩)))
              ("NOORDER_" ++ pad3 (i + 1)) ∧
        (out.get ⟨i, h2⟩).2.1
          = orBlank
              (extractAssignmentIdCtx (subAt root ((findContractContexts root).get ⟨i, h1⟩)))
              ("NOASSIGN_" ++ pad3 (i + 1))) ∧
      (∀ (i : Nat) (h2 : i < out.length) (p : Pos) (e' : Elem),
        (out.get ⟨i, h2⟩).2.2.get? p = some e' →
        ∃ p₀ e₀, root.get? p₀ = some e₀ ∧ e'.tag = e₀.tag ∧ e'.text = e₀.text) := by
  have hms : ∀ a ∈ List.range (findContractContexts root).length,
      (splitStep root a).isSome := by
    intro a ha
    have hlt : a < (findContractContexts root).length := List.mem_range.1 ha
    rw [splitStep_eq root a hpw hlt]
    rfl
  obtain ⟨ys, hys, hlen, hidx⟩ :=
    mapM_option_of_isSome (List.range (findContractContexts root).length)
      (splitStep root) hms
  have hrlen : (List.range (findContractContexts root).length).length
      = (findContractContexts root).length := List.length_range _
  have hget : ∀ (i : Nat) (h1 : i < (findContractContexts root).length)
      (h2 : i < ys.length),
      ys.get ⟨i, h2⟩ =
        (orBlank
          (extractOrderIdCtx (subAt root ((findContractContexts root).get ⟨i, h1⟩)))
          ("NOORDER_" ++ pad3 (i + 1)),
         orBlank
          (extractAssignmentIdCtx (subAt root ((findContractContexts root).get ⟨i, h1⟩)))
          ("NOASSIGN_" ++ pad3 (i + 1)),
         removeMany root ((findContractContexts root).eraseIdx i)) := by
    intro i h1 h2
    have h1' : i < (List.range (findContractContexts root).length).length := by
      rw [hrlen]
      exact h1
    have hx := hidx i h1' h2
    have hrg : (List.range (findContractContexts root).length).get ⟨i, h1'⟩ = i := by
      rw [List.get_eq_getElem]
      exact List.getElem_range i h1'
    rw [hrg, splitStep_eq root i hpw h1] at hx
    exact (Option.some.injEq _ _ ▸ hx).symm
  refine ⟨ys, ?_, by omega, ?_, ?_⟩
  · rw [show splitFixedByContract root
      = (List.range (findContractContexts root).length).mapM (splitStep root) from rfl]
    exact hys
  · intro i h1 h2
    rw [hget i h1 h2]
    obtain ⟨ψ, hψ, hpres⟩ := split_one root i hpw h1
    exact ⟨⟨ψ, hψ, hpres⟩, rfl, rfl⟩
  · intro i h2 p e' hp
    have h1 : i < (findContractContexts root).length := by omega
    rw [hget i h1 h2] at hp
    exact removeMany_node_src p root ((findContractContexts root).eraseIdx i) e' hp

/-- C3 (amended) witness: the two-context document `exDoc2` satisfies the
pairwise-incomparability hypothesis, and the amended split round-trip
holds for it. -/
theorem C3_amended_witness :
    (∀ p ∈ findContractContexts exDoc2, ∀ q ∈ findContractContexts exDoc2,
      p ≠ q → ¬ p <+: q) ∧
    ∃ out : List (String × String × Elem),
      splitFixedByContract exDoc2 = some out ∧
      out.length = (findContractContexts exDoc2).length ∧
      (∀ (i : Nat) (h1 : i < (findContractContexts exDoc2).length)
          (h2 : i < out.length),
        (∃ ψ, findContractContexts (out.get ⟨i, h2⟩).2.2 = [ψ] ∧
          (out.get ⟨i, h2⟩).2.2.get? ψ
            = exDoc2.get? ((findContractContexts exDoc2).get ⟨i, h1⟩)) ∧
        (out.get ⟨i, h2⟩).1
          = orBlank
              (extractOrderIdCtx (subAt exDoc2 ((findContractContexts exDoc2).get ⟨i, h1⟩)))
              ("NOORDER_" ++ pad3 (i + 1)) ∧
        (out.get ⟨i, h2⟩).2.1
          = orBlank
              (extractAssignmentIdCtx (subAt exDoc2 ((findContractContexts exDoc2).get ⟨i, h1⟩)))
              ("NOASSIGN_" ++ pad3 (i + 1))) ∧
      (∀ (i : Nat) (h2 : i < out.length) (p : Pos) (e' : Elem),
        (out.get ⟨i, h2⟩).2.2.get? p = some e' →
        ∃ p₀ e₀, exDoc2.get? p₀ = some e₀ ∧ e'.tag = e₀.tag ∧ e'.text = e₀.text) :=
  ⟨by decide, C3_amended exDoc2 (by decide)⟩
